import Mathlib

/-!
Verification of the in-memory order-book engine `orderbook_local.py`
(repository `binance-throughtput-analysis`).

The engine keeps a two-sided book as dictionaries from price *text* to
quantity *text*, parses levels with Python's exact `Decimal`, applies
incremental depth updates, samples projections, and generates a single
"revert" update between two book states.  Every definition below is a
shallow embedding of the corresponding Python function, keeping the
source's names.  Python dictionaries are modelled as insertion-ordered
association lists with unique keys; Python's stable `sorted` is modelled
by `List.insertionSort`, which is stable in the same way.
-/

namespace OrderbookLocal

/-! ### Exact decimal parsing (Python `decimal.Decimal` on the numeric grammar)

`Decimal(s)` is modelled by `parseDecimal : String → Option Rat`:
an optional sign, a coefficient (digits with an optional point, at least
one digit), and an optional exponent part.  The value is exact. -/

def isDigitCh (c : Char) : Bool := '0' ≤ c && c ≤ '9'

def digitsVal (cs : List Char) : Nat :=
  cs.foldl (fun n c => 10 * n + (c.toNat - 48)) 0

/-- Parse the optional exponent tail (`e`/`E`, optional sign, digits).
An empty tail means exponent `0`. -/
def parseExpPart : List Char → Option Int
  | [] => some 0
  | c :: rest =>
    if c = 'e' ∨ c = 'E' then
      match rest with
      | '+' :: ds => if ds ≠ [] ∧ ds.all isDigitCh then some (digitsVal ds) else none
      | '-' :: ds => if ds ≠ [] ∧ ds.all isDigitCh then some (-(digitsVal ds : Int)) else none
      | ds => if ds ≠ [] ∧ ds.all isDigitCh then some (digitsVal ds) else none
    else none

/-- Parse the coefficient: digits, optionally with a decimal point.
Returns (coefficient digits as a number, number of fractional digits, rest). -/
def parseMantissa (cs : List Char) : Option (Nat × Nat × List Char) :=
  let ip := cs.takeWhile isDigitCh
  let r1 := cs.dropWhile isDigitCh
  match r1 with
  | '.' :: r2 =>
    let fp := r2.takeWhile isDigitCh
    let r3 := r2.dropWhile isDigitCh
    if ip.isEmpty && fp.isEmpty then none
    else some (digitsVal (ip ++ fp), fp.length, r3)
  | _ => if ip.isEmpty then none else some (digitsVal ip, 0, r1)

/-- Exact value of a parsed decimal: `±coeff · 10^(exp - fracLen)`. -/
def decValue (coeff : Nat) (fracLen : Nat) (exp : Int) (neg : Bool) : Rat :=
  let t : Int := exp - fracLen
  let sm : Int := if neg then -(coeff : Int) else (coeff : Int)
  if 0 ≤ t then mkRat (sm * (10 : Int) ^ t.toNat) 1
  else mkRat sm ((10 : Nat) ^ (-t).toNat)

/-- Model of `Decimal(s)` restricted to the plain numeric grammar. -/
def parseDecimal (s : String) : Option Rat :=
  let p : Bool × List Char :=
    match s.data with
    | '-' :: r => (true, r)
    | '+' :: r => (false, r)
    | r => (false, r)
  match parseMantissa p.2 with
  | none => none
  | some (coeff, fracLen, rest) =>
    match parseExpPart rest with
    | none => none
    | some e => some (decValue coeff fracLen e p.1)

/-- The decimal value of a price/quantity string that is known to parse
(defaulting to 0, which never occurs on validated input). -/
def decOf (s : String) : Rat := (parseDecimal s).getD 0

/-- Bool test: the string parses as an exact decimal. -/
def priceOkB (s : String) : Bool := (parseDecimal s).isSome

/-- Bool test: the string parses as an exact decimal that is ≥ 0. -/
def qtyNonnegB (s : String) : Bool :=
  match parseDecimal s with
  | some r => decide (0 ≤ r)
  | none => false

/-- Bool test: the string parses as an exact decimal that is > 0. -/
def qtyPosB (s : String) : Bool :=
  match parseDecimal s with
  | some r => decide (0 < r)
  | none => false

/-! ### JSON values (the payloads handed to the engine by `json.load`) -/

inductive Json where
  | str (s : String)
  | num (n : Int)
  | bool (b : Bool)
  | null
  | arr (xs : List Json)
  | obj (kvs : List (String × Json))

/-- `dict.get` on a JSON object: first binding of the key, if any. -/
def jget (kvs : List (String × Json)) (k : String) : Option Json :=
  match kvs with
  | [] => none
  | kv :: t => if kv.1 = k then some kv.2 else jget t k

/-! ### The Decimal Level Codec: `parse_levels` (lines 82–102) -/

/-- The four `raise ValueError` sites inside the per-row loop of
`parse_levels`. -/
inductive LevelErrKind where
  | notPair
  | notText
  | badDecimal
  | negativeQty
  deriving DecidableEq

/-- A malformed-level error: carries the side label, the offending index
and the raw row, mirroring the `ValueError` message contents. -/
structure LevelErr where
  label : String
  index : Nat
  row : Json
  kind : LevelErrKind

/-- Errors of `parse_levels` as a whole: either the levels value is not a
list, or one row is malformed. -/
inductive LevelsErr where
  | notList (label : String)
  | level (e : LevelErr)

/-- Validation of one `[price, qty]` row (the body of the loop in
`parse_levels`): a two-element list of strings, both parsing as exact
decimals, quantity non-negative.  Zero quantity is accepted. -/
def parseRow (label : String) (i : Nat) (row : Json) : Except LevelErr (String × String) :=
  match row with
  | .arr [p, q] =>
    match p, q with
    | .str ps, .str qs =>
      match parseDecimal ps, parseDecimal qs with
      | some _, some qd =>
        if qd < 0 then .error ⟨label, i, row, .negativeQty⟩ else .ok (ps, qs)
      | _, _ => .error ⟨label, i, row, .badDecimal⟩
    | _, _ => .error ⟨label, i, row, .notText⟩
  | _ => .error ⟨label, i, row, .notPair⟩

def parseLevelsAux (label : String) : Nat → List Json → Except LevelErr (List (String × String))
  | _, [] => .ok []
  | i, row :: rest =>
    match parseRow label i row with
    | .error e => .error e
    | .ok pq =>
      match parseLevelsAux label (i + 1) rest with
      | .error e => .error e
      | .ok out => .ok (pq :: out)

/-- `parse_levels(levels, label)`: `None` yields `[]`; a non-list raises;
otherwise every row is validated in order. -/
def parse_levels (levels : Option Json) (label : String) :
    Except LevelsErr (List (String × String)) :=
  match levels with
  | none => .ok []
  | some (.arr rows) =>
    match parseLevelsAux label 0 rows with
    | .error e => .error (.level e)
    | .ok out => .ok out
  | some _ => .error (.notList label)

/-! ### Python dictionaries of strings (one side of the book)

Insertion-ordered association lists.  `dset` overwrites in place (keeping
the key's position, as Python dicts do), `dpop` removes the entry. -/

abbrev Dict := List (String × String)

def dget (d : Dict) (p : String) : Option String :=
  match d with
  | [] => none
  | kv :: t => if kv.1 = p then some kv.2 else dget t p

def dset : Dict → String → String → Dict
  | [], p, q => [(p, q)]
  | kv :: t, p, q => if kv.1 = p then (p, q) :: t else kv :: dset t p q

def dpop : Dict → String → Dict
  | [], _ => []
  | kv :: t, p => if kv.1 = p then t else kv :: dpop t p

def dkeys (d : Dict) : List String := d.map Prod.fst

/-! ### The Book (lines 135–147) -/

structure Book where
  ask : Dict
  bid : Dict
  deriving DecidableEq

/-- `new_empty_book()` (line 135). -/
def new_empty_book : Book := ⟨[], []⟩

/-- `book_from_snapshot(snap)` (lines 139–147): validate both sides via
the codec, then insert every level (last write wins; no zero filter). -/
def book_from_snapshot (snap : List (String × Json)) : Except LevelsErr Book :=
  match parse_levels (some ((jget snap "asks").getD (.arr []))) "asks" with
  | .error e => .error e
  | .ok asks =>
    match parse_levels (some ((jget snap "bids").getD (.arr []))) "bids" with
    | .error e => .error e
    | .ok bids =>
      .ok ⟨asks.foldl (fun d pq => dset d pq.1 pq.2) [],
           bids.foldl (fun d pq => dset d pq.1 pq.2) []⟩

/-! ### The Delta Applier: `apply_event` (lines 150–162) -/

/-- One raw update event as passed to `apply_event`: the values of the
`"b"` and `"a"` keys (`none` models an absent key, i.e. Python `None`). -/
structure UpdEvent where
  b : Option Json
  a : Option Json
  deriving Inhabited

/-- One level application: zero decimal quantity pops the price (by exact
text), otherwise the quantity is upserted at that price text. -/
def applyLevel (d : Dict) (pq : String × String) : Dict :=
  if decOf pq.2 = 0 then dpop d pq.1 else dset d pq.1 pq.2

def applyLevels (d : Dict) (ls : List (String × String)) : Dict :=
  ls.foldl applyLevel d

/-- `apply_event(book, event)`: parse and apply the whole bid list, then
parse and apply the whole ask list.  The returned book is the state the
mutated Python book is left in, together with the raised error, if any. -/
def apply_event (book : Book) (ev : UpdEvent) : Book × Option LevelsErr :=
  match parse_levels ev.b "bids" with
  | .error e => (book, some e)
  | .ok bs =>
    let book1 : Book := ⟨book.ask, applyLevels book.bid bs⟩
    match parse_levels ev.a "asks" with
    | .error e => (book1, some e)
    | .ok asLs => (⟨applyLevels book1.ask asLs, book1.bid⟩, none)

/-- Applying a whole event sequence in order (the successful-run state). -/
def applyAll (book : Book) (evs : List UpdEvent) : Book :=
  evs.foldl (fun bk e => (apply_event bk e).1) book

/-! ### Sorted projection: `sorted_side` and `book_to_levels` (206–218) -/

/-- Ascending comparison of price texts by exact decimal value. -/
def ascP (p1 p2 : String) : Prop := decOf p1 ≤ decOf p2

/-- Descending comparison of price texts by exact decimal value. -/
def descP (p1 p2 : String) : Prop := decOf p2 ≤ decOf p1

instance : DecidableRel ascP := fun _ _ => inferInstanceAs (Decidable (_ ≤ _))
instance : DecidableRel descP := fun _ _ => inferInstanceAs (Decidable (_ ≤ _))

/-- `sorted_side(book_side, side)`: keys sorted by `Decimal` (ascending
for `"ask"`, descending for `"bid"`, both stable), paired with their
quantities. -/
def sorted_side (book_side : Dict) (side : String) : List (String × String) :=
  let prices :=
    if side = "ask" then List.insertionSort ascP (dkeys book_side)
    else List.insertionSort descP (dkeys book_side)
  prices.map fun p => (p, (dget book_side p).getD "")

/-- The exported projection `{"asks": ..., "bids": ...}`. -/
structure BookLevels where
  asks : List (String × String)
  bids : List (String × String)
  deriving DecidableEq

/-- `book_to_levels(book)` (lines 214–218). -/
def book_to_levels (book : Book) : BookLevels :=
  ⟨sorted_side book.ask "ask", sorted_side book.bid "bid"⟩

/-! ### Diff/Revert Generator: `generate_revert_update` (165–203) -/

/-- `side_diff` inside `generate_revert_update`: removals and changes in
the current side's insertion order, then additions in the target side's
insertion order, then a stable sort by decimal price (ascending for asks,
descending for bids). -/
def side_diff (cur tgt : Dict) (side : String) (zero_fmt : String) :
    List (String × String) :=
  let removalsChanges := cur.filterMap fun pq =>
    match dget tgt pq.1 with
    | none => some (pq.1, zero_fmt)
    | some qTgt => if qTgt ≠ pq.2 then some (pq.1, qTgt) else none
  let additions := tgt.filterMap fun pq =>
    if dget cur pq.1 = none then some (pq.1, pq.2) else none
  let out := removalsChanges ++ additions
  if side = "ask" then List.insertionSort (fun x y => ascP x.1 y.1) out
  else List.insertionSort (fun x y => descP x.1 y.1) out

instance : DecidableRel (fun (x y : String × String) => ascP x.1 y.1) :=
  fun _ _ => inferInstanceAs (Decidable (_ ≤ _))
instance : DecidableRel (fun (x y : String × String) => descP x.1 y.1) :=
  fun _ _ => inferInstanceAs (Decidable (_ ≤ _))

/-- The revert update's payload: the `"b"` and `"a"` lists of the
generated `depthUpdate` event. -/
structure RevertUpdate where
  b : List (String × String)
  a : List (String × String)
  deriving DecidableEq

/-- `generate_revert_update(current_book, target_book, zero_fmt)`. -/
def generate_revert_update (current_book target_book : Book)
    (zero_fmt : String := "0.00000000") : RevertUpdate :=
  ⟨side_diff current_book.bid target_book.bid "bid" zero_fmt,
   side_diff current_book.ask target_book.ask "ask" zero_fmt⟩

/-- Re-encode a generated level list as the JSON the Delta Applier takes. -/
def encodeLevels (ls : List (String × String)) : Json :=
  .arr (ls.map fun pq => .arr [.str pq.1, .str pq.2])

/-- The revert update as a raw event for `apply_event`. -/
def revertEvent (r : RevertUpdate) : UpdEvent :=
  ⟨some (encodeLevels r.b), some (encodeLevels r.a)⟩

/-! ### The update stream: `iter_depth_events` (lines 118–131) -/

/-- Errors raised by `iter_depth_events`. -/
inductive UpdatesErr where
  | notList
  | itemNotObject (i : Nat)
  | payloadNotObject (i : Nat)
  | missingAB (i : Nat)

/-- One normalized depth event: the `"a"` and `"b"` lists. -/
structure DepthEvent where
  a : List Json
  b : List Json

/-- Extraction of the `"a"`/`"b"` arrays from a payload object: missing
keys default to empty lists; present non-list values raise. -/
def extractAB (i : Nat) (pkvs : List (String × Json)) : Except UpdatesErr DepthEvent :=
  match (jget pkvs "a").getD (.arr []), (jget pkvs "b").getD (.arr []) with
  | .arr asLs, .arr bs => .ok ⟨asLs, bs⟩
  | _, _ => .error (.missingAB i)

/-- The per-item body of `iter_depth_events`: the item must be an object;
the payload is `item.get("data", item)` and must be an object. -/
def normalizeUpdate (i : Nat) (item : Json) : Except UpdatesErr DepthEvent :=
  match item with
  | .obj kvs =>
    match (jget kvs "data").getD (.obj kvs) with
    | .obj pkvs => extractAB i pkvs
    | _ => .error (.payloadNotObject i)
  | _ => .error (.itemNotObject i)

def iterDepthEventsAux : Nat → List Json → Except UpdatesErr (List DepthEvent)
  | _, [] => .ok []
  | i, item :: rest =>
    match normalizeUpdate i item with
    | .error e => .error e
    | .ok ev =>
      match iterDepthEventsAux (i + 1) rest with
      | .error e => .error e
      | .ok evs => .ok (ev :: evs)

/-- `iter_depth_events(obj)`: the updates payload must be a list of
objects, each normalized to its `a`/`b` change lists. -/
def iter_depth_events (obj : Json) : Except UpdatesErr (List DepthEvent) :=
  match obj with
  | .arr items => iterDepthEventsAux 0 items
  | _ => .error .notList

/-- The raw event handed to `apply_event` for a normalized depth event. -/
def eventOf (de : DepthEvent) : UpdEvent := ⟨some (.arr de.b), some (.arr de.a)⟩

/-! ### The Sampler: the storage loop of `main` (lines 249–268) -/

/-- Bool test: both sides of the event pass codec validation, so
`apply_event` raises nothing. -/
def validEventB (ev : UpdEvent) : Bool :=
  (match parse_levels ev.b "bids" with | .ok _ => true | .error _ => false) &&
  (match parse_levels ev.a "asks" with | .ok _ => true | .error _ => false)

def validEvent (ev : UpdEvent) : Prop := validEventB ev = true

instance (ev : UpdEvent) : Decidable (validEvent ev) :=
  inferInstanceAs (Decidable (validEventB ev = true))

/-- Apply a sequence of events, aborting at the first raised error (the
whole Python run dies, discarding its output). -/
def applyAllE (book : Book) : List UpdEvent → Except LevelsErr Book
  | [] => .ok book
  | ev :: rest =>
    match apply_event book ev with
    | (book1, none) => applyAllE book1 rest
    | (_, some e) => .error e

/-- The `else` branch of the storage loop: `n` is incremented before each
apply, and a projection is stored after every event whose 1-indexed count
is divisible by the stride `k`. -/
def strideLoop (k : Nat) : Book → Nat → List UpdEvent → Except LevelsErr (List BookLevels)
  | _, _, [] => .ok []
  | book, n, ev :: rest =>
    match apply_event book ev with
    | (book1, none) =>
      match strideLoop k book1 (n + 1) rest with
      | .error e => .error e
      | .ok states =>
        .ok (if (n + 1) % k = 0 then book_to_levels book1 :: states else states)
    | (_, some e) => .error e

/-- The Sampler: `main`'s storage loop over an already-materialized event
sequence, seeded from a working copy of the initial book.  `final_only`
stores exactly one final projection; otherwise one projection is stored
every `max 1 store_every` events. -/
def run_sampler (initial_book : Book) (events : List UpdEvent)
    (final_only : Bool) (store_every : Int) : Except LevelsErr (List BookLevels) :=
  let book : Book := ⟨initial_book.ask, initial_book.bid⟩
  if final_only then
    match applyAllE book events with
    | .error e => .error e
    | .ok bookF => .ok [book_to_levels bookF]
  else
    strideLoop (max 1 store_every).toNat book 0 events

/-! ### A store model of `main`'s mutation (lines 249–290)

Python mutates dictionaries through references.  To state the frame
property (the run never touches `initial_book`), dictionaries live in a
store indexed by references; `main`'s working copy allocates two fresh
dictionaries (`dict(initial_book["ask"])`, `dict(initial_book["bid"])`)
and all mutation happens through the working references. -/

abbrev Store := List Dict

def readRef (s : Store) (r : Nat) : Dict := s.getD r []

def writeRef (s : Store) (r : Nat) (d : Dict) : Store := s.set r d

/-- A book held by reference: one reference per side. -/
structure BookRef where
  ask : Nat
  bid : Nat

def allocDict (s : Store) (d : Dict) : Store × Nat := (s ++ [d], s.length)

/-- Line 250: `book = {"ask": dict(initial_book["ask"]), "bid": dict(initial_book["bid"])}`. -/
def copyBookRef (s : Store) (br : BookRef) : Store × BookRef :=
  let sa := allocDict s (readRef s br.ask)
  let sb := allocDict sa.1 (readRef sa.1 br.bid)
  (sb.1, ⟨sa.2, sb.2⟩)

def readBook (s : Store) (br : BookRef) : Book := ⟨readRef s br.ask, readRef s br.bid⟩

/-- `apply_event` acting through references: read both sides, apply, and
write the mutated sides back. -/
def applyEventRef (s : Store) (br : BookRef) (ev : UpdEvent) : Store × Option LevelsErr :=
  let r := apply_event (readBook s br) ev
  (writeRef (writeRef s br.ask r.1.ask) br.bid r.1.bid, r.2)

/-- The storage loop acting on the working references. -/
def strideLoopRef (k : Nat) : Store → BookRef → Nat → List UpdEvent →
    Store × Except LevelsErr (List BookLevels)
  | s, _, _, [] => (s, .ok [])
  | s, br, n, ev :: rest =>
    match applyEventRef s br ev with
    | (s1, none) =>
      match strideLoopRef k s1 br (n + 1) rest with
      | (s2, .error e) => (s2, .error e)
      | (s2, .ok states) =>
        (s2, .ok (if (n + 1) % k = 0 then book_to_levels (readBook s1 br) :: states
                  else states))
    | (s1, some e) => (s1, .error e)

def applyAllRef : Store → BookRef → List UpdEvent → Store × Except LevelsErr Unit
  | s, _, [] => (s, .ok ())
  | s, br, ev :: rest =>
    match applyEventRef s br ev with
    | (s1, none) => applyAllRef s1 br rest
    | (s1, some e) => (s1, .error e)

/-- `main` lines 249–290 through the store: copy the initial book, drive
the working copy through all events storing projections, and compute the
revert update from copies of the final and initial books. -/
def mainRunRef (s : Store) (initial : BookRef) (events : List UpdEvent)
    (final_only : Bool) (store_every : Int) :
    Store × Except LevelsErr (List BookLevels) × RevertUpdate :=
  let c := copyBookRef s initial
  let run : Store × Except LevelsErr (List BookLevels) :=
    if final_only then
      match applyAllRef c.1 c.2 events with
      | (s1, .ok _) => (s1, .ok [book_to_levels (readBook s1 c.2)])
      | (s1, .error e) => (s1, .error e)
    else
      strideLoopRef (max 1 store_every).toNat c.1 c.2 0 events
  let revert := generate_revert_update (readBook run.1 c.2) (readBook run.1 initial)
  (run.1, run.2, revert)

/-- The snapshot of the spec's concrete scenario (§8). -/
def scenario_snapshot : List (String × Json) :=
  [("asks", .arr [.arr [.str "100.5", .str "2"]]),
   ("bids", .arr [.arr [.str "100.0", .str "3"]])]

/-- The single update event of the spec's concrete scenario (§8). -/
def scenario_event : UpdEvent :=
  ⟨some (.arr [.arr [.str "100.0", .str "0"]]),
   some (.arr [.arr [.str "100.5", .str "5"], .arr [.str "101.0", .str "1"]])⟩

/-- The initial book of the counterexample to the round-trip claim: a bid
side holding two distinct price texts with equal decimal value. -/
def cexRT_B0 : Book := ⟨[], [("1.0", "2"), ("1.00", "3")]⟩

/-- A valid delta event removing the bid at price text "1.0". -/
def cexRT_ev : UpdEvent :=
  ⟨some (.arr [.arr [.str "1.0", .str "0"]]), some (.arr [])⟩

/-! ### Well-formedness predicates -/

/-- Every quantity on the side parses as a strictly positive decimal. -/
def SidePos (d : Dict) : Prop := ∀ pq ∈ d, qtyPosB pq.2 = true

/-- Every quantity on the side parses as a non-negative decimal. -/
def SideNonneg (d : Dict) : Prop := ∀ pq ∈ d, qtyNonnegB pq.2 = true

/-- Every price on the side parses as a decimal. -/
def SidePrices (d : Dict) : Prop := ∀ pq ∈ d, priceOkB pq.1 = true

/-- The side is key-unique, its prices parse and its quantities are
strictly positive decimals. -/
def SideWF (d : Dict) : Prop := (dkeys d).Nodup ∧ SidePrices d ∧ SidePos d

/-- No two distinct price texts on the side denote the same decimal. -/
def SideDecInj (d : Dict) : Prop :=
  ∀ p1 ∈ dkeys d, ∀ p2 ∈ dkeys d, decOf p1 = decOf p2 → p1 = p2

instance (d : Dict) : Decidable (SidePos d) := List.decidableBAll _ d
instance (d : Dict) : Decidable (SideNonneg d) := List.decidableBAll _ d
instance (d : Dict) : Decidable (SidePrices d) := List.decidableBAll _ d
instance (d : Dict) : Decidable (SideWF d) := instDecidableAnd
instance (d : Dict) : Decidable (SideDecInj d) :=
  List.decidableBAll _ (dkeys d)

/-! ### Dictionary lemmas -/

theorem dget_cons (kv : String × String) (t : Dict) (x : String) :
    dget (kv :: t) x = if kv.1 = x then some kv.2 else dget t x := rfl

theorem dget_dset (d : Dict) (p q x : String) :
    dget (dset d p q) x = if p = x then some q else dget d x := by
  induction d with
  | nil => simp [dset, dget]
  | cons kv t ih =>
    rcases eq_or_ne kv.1 p with hk | hk
    · have h1 : dset (kv :: t) p q = (p, q) :: t := by simp [dset, hk]
      rw [h1, dget_cons, dget_cons, hk]
      by_cases hp : p = x <;> simp [hp]
    · have h1 : dset (kv :: t) p q = kv :: dset t p q := by simp [dset, hk]
      rw [h1, dget_cons, dget_cons, ih]
      rcases eq_or_ne kv.1 x with hx | hx
      · have hpx : p ≠ x := fun h => hk (hx.trans h.symm)
        simp [hx, hpx]
      · simp [hx]

theorem dget_mem (d : Dict) (p q : String) (h : dget d p = some q) : (p, q) ∈ d := by
  induction d with
  | nil => simp [dget] at h
  | cons kv t ih =>
    rw [dget_cons] at h
    rcases eq_or_ne kv.1 p with hk | hk
    · rw [if_pos hk] at h
      cases h
      have hkv : (p, kv.2) = kv := by rw [← hk]
      rw [hkv]
      exact List.mem_cons_self _ _
    · rw [if_neg hk] at h
      exact List.mem_cons_of_mem _ (ih h)

theorem dget_dpop (d : Dict) (p x : String) (hnd : (dkeys d).Nodup) :
    dget (dpop d p) x = if p = x then none else dget d x := by
  induction d with
  | nil => simp [dpop, dget]
  | cons kv t ih =>
    simp only [dkeys, List.map_cons, List.nodup_cons] at hnd
    rcases eq_or_ne kv.1 p with hk | hk
    · have h1 : dpop (kv :: t) p = t := by simp [dpop, hk]
      rw [h1, dget_cons]
      rcases eq_or_ne p x with hx | hx
      · subst hx
        rw [if_pos rfl]
        cases hg : dget t p with
        | none => rfl
        | some q =>
          exact absurd (hk ▸ List.mem_map_of_mem Prod.fst (dget_mem t p q hg)) hnd.1
      · rw [if_neg hx, if_neg (hk.trans_ne hx)]
    · have h1 : dpop (kv :: t) p = kv :: dpop t p := by simp [dpop, hk]
      rw [h1, dget_cons, dget_cons, ih hnd.2]
      rcases eq_or_ne kv.1 x with hx | hx
      · have hpx : p ≠ x := fun h => hk (hx.trans h.symm)
        simp [hx, hpx]
      · simp [hx]

theorem mem_dset (d : Dict) (p q : String) (x : String × String) :
    x ∈ dset d p q → x ∈ d ∨ x = (p, q) := by
  induction d with
  | nil => intro h; right; simpa [dset] using h
  | cons kv t ih =>
    rcases eq_or_ne kv.1 p with hk | hk
    · rw [show dset (kv :: t) p q = (p, q) :: t by simp [dset, hk]]
      rintro (_ | h)
      · right; rfl
      · left; right; assumption
    · rw [show dset (kv :: t) p q = kv :: dset t p q by simp [dset, hk]]
      rintro (_ | h)
      · left; left
      · rcases ih (by assumption) with h' | h'
        · left; right; exact h'
        · right; exact h'

theorem mem_dpop (d : Dict) (p : String) (x : String × String) :
    x ∈ dpop d p → x ∈ d := by
  induction d with
  | nil => simp [dpop]
  | cons kv t ih =>
    rcases eq_or_ne kv.1 p with hk | hk
    · rw [show dpop (kv :: t) p = t by simp [dpop, hk]]
      exact fun h => List.mem_cons_of_mem _ h
    · rw [show dpop (kv :: t) p = kv :: dpop t p by simp [dpop, hk]]
      rintro (_ | h)
      · left
      · exact List.mem_cons_of_mem _ (ih (by assumption))

theorem dget_none_iff (d : Dict) (p : String) :
    dget d p = none ↔ p ∉ dkeys d := by
  induction d with
  | nil => simp [dget, dkeys]
  | cons kv t ih =>
    rw [dget_cons]
    rcases eq_or_ne kv.1 p with hk | hk
    · simp only [if_pos hk, dkeys, List.map_cons]
      constructor
      · intro h; cases h
      · intro h; exact absurd (hk ▸ List.mem_cons_self _ _) h
    · simp only [if_neg hk, dkeys, List.map_cons, List.mem_cons]
      rw [ih]
      unfold dkeys
      constructor
      · rintro h (h' | h')
        · exact hk h'.symm
        · exact h h'
      · intro h h'
        exact h (Or.inr h')

theorem mem_dget (d : Dict) (p q : String) (hnd : (dkeys d).Nodup)
    (h : (p, q) ∈ d) : dget d p = some q := by
  induction d with
  | nil => simp at h
  | cons kv t ih =>
    simp only [dkeys, List.map_cons, List.nodup_cons] at hnd
    rcases List.mem_cons.mp h with h' | h'
    · rw [← h', dget_cons, if_pos rfl]
    · have hk : kv.1 ≠ p := by
        intro hk
        exact hnd.1 (hk ▸ List.mem_map_of_mem Prod.fst h')
      rw [dget_cons, if_neg hk]
      exact ih hnd.2 h'

theorem mem_dkeys_dset (d : Dict) (p q x : String) :
    x ∈ dkeys (dset d p q) ↔ x ∈ dkeys d ∨ x = p := by
  induction d with
  | nil => simp [dset, dkeys, eq_comm]
  | cons kv t ih =>
    rcases eq_or_ne kv.1 p with hk | hk
    · rw [show dset (kv :: t) p q = (p, q) :: t by simp [dset, hk]]
      simp only [dkeys, List.map_cons, List.mem_cons] at *
      constructor
      · rintro (h | h)
        · right; exact h
        · left; right; exact h
      · rintro ((h | h) | h)
        · left; rw [← hk, h]
        · right; exact h
        · left; exact h
    · rw [show dset (kv :: t) p q = kv :: dset t p q by simp [dset, hk]]
      simp only [dkeys, List.map_cons, List.mem_cons] at *
      rw [ih]
      tauto

theorem mem_dkeys_dpop (d : Dict) (p x : String) :
    x ∈ dkeys (dpop d p) → x ∈ dkeys d := by
  intro h
  rcases List.mem_map.mp h with ⟨pq, hm, he⟩
  exact he ▸ List.mem_map_of_mem Prod.fst (mem_dpop d p pq hm)

theorem nodup_dset (d : Dict) (p q : String) (hnd : (dkeys d).Nodup) :
    (dkeys (dset d p q)).Nodup := by
  induction d with
  | nil => simp [dset, dkeys]
  | cons kv t ih =>
    simp only [dkeys, List.map_cons, List.nodup_cons] at hnd
    rcases eq_or_ne kv.1 p with hk | hk
    · rw [show dset (kv :: t) p q = (p, q) :: t by simp [dset, hk]]
      simp only [dkeys, List.map_cons, List.nodup_cons]
      exact ⟨by rw [← hk]; exact hnd.1, hnd.2⟩
    · rw [show dset (kv :: t) p q = kv :: dset t p q by simp [dset, hk]]
      simp only [dkeys, List.map_cons, List.nodup_cons]
      refine ⟨fun hmem => ?_, ih hnd.2⟩
      rcases (mem_dkeys_dset t p q kv.1).mp hmem with h | h
      · exact hnd.1 h
      · exact hk h

theorem nodup_dpop (d : Dict) (p : String) (hnd : (dkeys d).Nodup) :
    (dkeys (dpop d p)).Nodup := by
  induction d with
  | nil => simp [dpop, dkeys]
  | cons kv t ih =>
    simp only [dkeys, List.map_cons, List.nodup_cons] at hnd
    rcases eq_or_ne kv.1 p with hk | hk
    · rw [show dpop (kv :: t) p = t by simp [dpop, hk]]
      exact hnd.2
    · rw [show dpop (kv :: t) p = kv :: dpop t p by simp [dpop, hk]]
      simp only [dkeys, List.map_cons, List.nodup_cons]
      exact ⟨fun hmem => hnd.1 (mem_dkeys_dpop t p kv.1 hmem), ih hnd.2⟩

/-! ### Level application lemmas -/

theorem dget_applyLevel (d : Dict) (pq : String × String) (x : String)
    (hnd : (dkeys d).Nodup) :
    dget (applyLevel d pq) x =
      if pq.1 = x then (if decOf pq.2 = 0 then none else some pq.2) else dget d x := by
  unfold applyLevel
  rcases eq_or_ne (decOf pq.2) 0 with hz | hz
  · rw [if_pos hz, dget_dpop d pq.1 x hnd]
    by_cases h : pq.1 = x <;> simp [h, hz]
  · rw [if_neg hz, dget_dset]
    by_cases h : pq.1 = x <;> simp [h, hz]

theorem nodup_applyLevel (d : Dict) (pq : String × String) (hnd : (dkeys d).Nodup) :
    (dkeys (applyLevel d pq)).Nodup := by
  unfold applyLevel
  split
  · exact nodup_dpop d pq.1 hnd
  · exact nodup_dset d pq.1 pq.2 hnd

theorem mem_applyLevel (d : Dict) (pq x : String × String) :
    x ∈ applyLevel d pq → x ∈ d ∨ (x = pq ∧ ¬ decOf pq.2 = 0) := by
  unfold applyLevel
  split
  · exact fun h => Or.inl (mem_dpop d pq.1 x h)
  · intro h
    rcases mem_dset d pq.1 pq.2 x h with h' | h'
    · exact Or.inl h'
    · right
      constructor
      · rw [h']
      · assumption

theorem nodup_applyLevels (L : List (String × String)) (d : Dict)
    (hnd : (dkeys d).Nodup) : (dkeys (applyLevels d L)).Nodup := by
  induction L generalizing d with
  | nil => exact hnd
  | cons pq rest ih => exact ih (applyLevel d pq) (nodup_applyLevel d pq hnd)

theorem mem_applyLevels (L : List (String × String)) (d : Dict) (x : String × String) :
    x ∈ applyLevels d L → x ∈ d ∨ (x ∈ L ∧ ¬ decOf x.2 = 0) := by
  induction L generalizing d with
  | nil => exact fun h => Or.inl h
  | cons pq rest ih =>
    intro h
    rcases ih (applyLevel d pq) h with h' | h'
    · rcases mem_applyLevel d pq x h' with h'' | ⟨h1, h2⟩
      · exact Or.inl h''
      · right
        subst h1
        exact ⟨List.mem_cons_self _ _, h2⟩
    · right
      exact ⟨List.mem_cons_of_mem _ h'.1, h'.2⟩

theorem dget_applyLevels_notin (L : List (String × String)) (d : Dict) (x : String)
    (hnd : (dkeys d).Nodup) (hx : x ∉ L.map Prod.fst) :
    dget (applyLevels d L) x = dget d x := by
  induction L generalizing d with
  | nil => rfl
  | cons pq rest ih =>
    simp only [List.map_cons, List.mem_cons, not_or] at hx
    have h1 : dget (applyLevels (applyLevel d pq) rest) x = dget (applyLevel d pq) x :=
      ih (applyLevel d pq) (nodup_applyLevel d pq hnd) hx.2
    have h2 : dget (applyLevel d pq) x = dget d x := by
      rw [dget_applyLevel d pq x hnd, if_neg (fun h => hx.1 h.symm)]
    exact h1.trans h2

/-- The net effect of applying one event's level list with distinct keys:
a listed key ends at its listed quantity (absent when the quantity is
zero), every other key is untouched. -/
theorem dget_applyLevels (L : List (String × String)) (d : Dict) (x : String)
    (hnd : (dkeys d).Nodup) (hndL : (L.map Prod.fst).Nodup) :
    dget (applyLevels d L) x =
      match dget L x with
      | some q => if decOf q = 0 then none else some q
      | none => dget d x := by
  induction L generalizing d with
  | nil => rfl
  | cons pq rest ih =>
    simp only [List.map_cons, List.nodup_cons] at hndL
    rcases eq_or_ne pq.1 x with hk | hk
    · have hx : x ∉ rest.map Prod.fst := hk ▸ hndL.1
      have h1 : dget (applyLevels (applyLevel d pq) rest) x = dget (applyLevel d pq) x :=
        dget_applyLevels_notin rest (applyLevel d pq) x (nodup_applyLevel d pq hnd) hx
      show dget (applyLevels (applyLevel d pq) rest) x = _
      rw [h1, dget_applyLevel d pq x hnd, if_pos hk, dget_cons, if_pos hk]
    · show dget (applyLevels (applyLevel d pq) rest) x = _
      rw [ih (applyLevel d pq) (nodup_applyLevel d pq hnd) hndL.2, dget_cons, if_neg hk]
      cases dget rest x with
      | some q => rfl
      | none => exact dget_applyLevel d pq x hnd |>.trans (if_neg hk)

/-! ### Codec validation lemmas -/

theorem parseRow_ok (label : String) (i : Nat) (row : Json) (pq : String × String)
    (h : parseRow label i row = .ok pq) :
    priceOkB pq.1 = true ∧ qtyNonnegB pq.2 = true ∧ row = .arr [.str pq.1, .str pq.2] := by
  unfold parseRow at h
  split at h <;> try exact absurd h (by simp)
  split at h <;> try exact absurd h (by simp)
  split at h <;> try exact absurd h (by simp)
  split at h
  · exact absurd h (by simp)
  · cases h
    constructor
    · unfold priceOkB
      rename_i hsome _ _
      rw [hsome]
      rfl
    constructor
    · unfold qtyNonnegB
      rename_i hq hlt
      rw [hq]
      simpa using not_lt.mp hlt
    · rfl

theorem parseLevelsAux_ok_mem (label : String) (rows : List Json) :
    ∀ (i : Nat) (L : List (String × String)), parseLevelsAux label i rows = .ok L →
      ∀ pq ∈ L, priceOkB pq.1 = true ∧ qtyNonnegB pq.2 = true := by
  induction rows with
  | nil =>
    intro i L h pq hm
    cases h
    cases hm
  | cons row rest ih =>
    intro i L h pq hm
    unfold parseLevelsAux at h
    cases hrow : parseRow label i row with
    | error e => rw [hrow] at h; exact absurd h (by simp)
    | ok pq0 =>
      rw [hrow] at h
      cases hrest : parseLevelsAux label (i + 1) rest with
      | error e => rw [hrest] at h; exact absurd h (by simp)
      | ok out =>
        rw [hrest] at h
        cases h
        rcases List.mem_cons.mp hm with h' | h'
        · subst h'
          exact ⟨(parseRow_ok label i row pq hrow).1, (parseRow_ok label i row pq hrow).2.1⟩
        · exact ih (i + 1) _ hrest pq h'

theorem parse_levels_ok_mem (v : Option Json) (label : String)
    (L : List (String × String)) (h : parse_levels v label = .ok L) :
    ∀ pq ∈ L, priceOkB pq.1 = true ∧ qtyNonnegB pq.2 = true := by
  cases v with
  | none =>
    cases h
    intro pq hm
    cases hm
  | some j =>
    cases j with
    | str s => exact absurd h (by simp [parse_levels])
    | num n => exact absurd h (by simp [parse_levels])
    | bool b => exact absurd h (by simp [parse_levels])
    | null => exact absurd h (by simp [parse_levels])
    | obj kvs => exact absurd h (by simp [parse_levels])
    | arr rows =>
      unfold parse_levels at h
      dsimp only at h
      cases hrows : parseLevelsAux label 0 rows with
      | error e => rw [hrows] at h; exact absurd h (by simp)
      | ok out =>
        rw [hrows] at h
        cases h
        exact parseLevelsAux_ok_mem label rows 0 _ hrows

theorem qtyPos_of_nonneg_nz (q : String) (h : qtyNonnegB q = true)
    (hz : ¬ decOf q = 0) : qtyPosB q = true := by
  unfold qtyNonnegB at h
  unfold qtyPosB
  unfold decOf at hz
  cases hp : parseDecimal q with
  | none => rw [hp] at h; cases h
  | some r =>
    rw [hp] at h hz
    simp only [Option.getD_some] at hz
    simp only [decide_eq_true_eq] at h ⊢
    exact lt_of_le_of_ne h (Ne.symm hz)

/-! ### Side well-formedness preservation -/

theorem SideWF_applyLevels (d : Dict) (L : List (String × String)) (hd : SideWF d)
    (hL : ∀ pq ∈ L, priceOkB pq.1 = true ∧ qtyNonnegB pq.2 = true) :
    SideWF (applyLevels d L) := by
  refine ⟨nodup_applyLevels L d hd.1, ?_, ?_⟩
  · intro pq hm
    rcases mem_applyLevels L d pq hm with h | ⟨h, _⟩
    · exact hd.2.1 pq h
    · exact (hL pq h).1
  · intro pq hm
    rcases mem_applyLevels L d pq hm with h | ⟨h, hnz⟩
    · exact hd.2.2 pq h
    · exact qtyPos_of_nonneg_nz _ (hL pq h).2 hnz

theorem SidePos_applyLevels (d : Dict) (L : List (String × String)) (hd : SidePos d)
    (hL : ∀ pq ∈ L, qtyNonnegB pq.2 = true) : SidePos (applyLevels d L) := by
  intro pq hm
  rcases mem_applyLevels L d pq hm with h | ⟨h, hnz⟩
  · exact hd pq h
  · exact qtyPos_of_nonneg_nz _ (hL pq h) hnz

theorem qtyNonnegB_exists (q : String) (h : qtyNonnegB q = true) :
    ∃ r, parseDecimal q = some r ∧ 0 ≤ r := by
  unfold qtyNonnegB at h
  cases hp : parseDecimal q with
  | none => rw [hp] at h; cases h
  | some r =>
    rw [hp] at h
    exact ⟨r, rfl, by simpa using h⟩

theorem parseRow_ok_of (label : String) (i : Nat) (p q : String)
    (hp : priceOkB p = true) (hq : qtyNonnegB q = true) :
    parseRow label i (.arr [.str p, .str q]) = .ok (p, q) := by
  rcases Option.isSome_iff_exists.mp (by simpa [priceOkB] using hp) with ⟨v, hv⟩
  rcases qtyNonnegB_exists q hq with ⟨r, hr, hr0⟩
  unfold parseRow
  dsimp only
  rw [hv, hr]
  dsimp only
  rw [if_neg (not_lt.mpr hr0)]

theorem parseLevelsAux_encode (label : String) (L : List (String × String))
    (hL : ∀ pq ∈ L, priceOkB pq.1 = true ∧ qtyNonnegB pq.2 = true) :
    ∀ i, parseLevelsAux label i (L.map fun pq => .arr [.str pq.1, .str pq.2]) = .ok L := by
  induction L with
  | nil => intro i; rfl
  | cons pq rest ih =>
    intro i
    have h1 := parseRow_ok_of label i pq.1 pq.2 (hL pq (List.mem_cons_self _ _)).1
      (hL pq (List.mem_cons_self _ _)).2
    have h2 := ih (fun x hx => hL x (List.mem_cons_of_mem _ hx)) (i + 1)
    unfold parseLevelsAux
    simp only [List.map_cons]
    rw [show ((.arr [.str pq.1, .str pq.2] : Json)) = (.arr [.str pq.1, .str pq.2] : Json)
      from rfl]
    rw [h1, h2]

/-- Re-encoding validated levels and parsing them back is the identity:
the generated revert event round-trips through the codec. -/
theorem parse_levels_encode (label : String) (L : List (String × String))
    (hL : ∀ pq ∈ L, priceOkB pq.1 = true ∧ qtyNonnegB pq.2 = true) :
    parse_levels (some (encodeLevels L)) label = .ok L := by
  unfold parse_levels encodeLevels
  dsimp only
  rw [parseLevelsAux_encode label L hL 0]

theorem mem_foldl_dset (L : List (String × String)) (acc : Dict) (x : String × String) :
    x ∈ L.foldl (fun d pq => dset d pq.1 pq.2) acc → x ∈ acc ∨ x ∈ L := by
  induction L generalizing acc with
  | nil => exact fun h => Or.inl h
  | cons pq rest ih =>
    intro h
    rcases ih (dset acc pq.1 pq.2) h with h' | h'
    · rcases mem_dset acc pq.1 pq.2 x h' with h'' | h''
      · exact Or.inl h''
      · right
        rw [h'']
        exact List.mem_cons_self _ _
    · exact Or.inr (List.mem_cons_of_mem _ h')

/-! ### `apply_event` unfolding and validity -/

theorem apply_event_ok (book : Book) (ev : UpdEvent) (bs asLs : List (String × String))
    (hb : parse_levels ev.b "bids" = .ok bs) (ha : parse_levels ev.a "asks" = .ok asLs) :
    apply_event book ev = (⟨applyLevels book.ask asLs, applyLevels book.bid bs⟩, none) := by
  unfold apply_event
  rw [hb, ha]

theorem validEvent_iff (ev : UpdEvent) :
    validEvent ev ↔
      (∃ bs, parse_levels ev.b "bids" = .ok bs) ∧
      (∃ asLs, parse_levels ev.a "asks" = .ok asLs) := by
  unfold validEvent validEventB
  constructor
  · intro h
    cases hb : parse_levels ev.b "bids" with
    | error e => rw [hb] at h; simp at h
    | ok bs =>
      cases ha : parse_levels ev.a "asks" with
      | error e => rw [hb, ha] at h; simp at h
      | ok asLs => exact ⟨⟨bs, rfl⟩, ⟨asLs, rfl⟩⟩
  · rintro ⟨⟨bs, hb⟩, ⟨asLs, ha⟩⟩
    rw [hb, ha]
    rfl

theorem apply_event_of_valid (book : Book) (ev : UpdEvent) (h : validEvent ev) :
    ∃ bs asLs, parse_levels ev.b "bids" = .ok bs ∧ parse_levels ev.a "asks" = .ok asLs ∧
      apply_event book ev = (⟨applyLevels book.ask asLs, applyLevels book.bid bs⟩, none) := by
  rcases (validEvent_iff ev).mp h with ⟨⟨bs, hb⟩, ⟨asLs, ha⟩⟩
  exact ⟨bs, asLs, hb, ha, apply_event_ok book ev bs asLs hb ha⟩

/-! ### Uniqueness of sorted orders on decimal-distinct keys -/

theorem perm_pairwise_asymm_eq {α : Type} {r : α → α → Prop}
    (hasymm : ∀ a b, r a b → r b a → False) :
    ∀ (l1 l2 : List α), l1.Perm l2 → l1.Pairwise r → l2.Pairwise r → l1 = l2 := by
  intro l1
  induction l1 with
  | nil =>
    intro l2 hp _ _
    exact (hp.symm.eq_nil).symm
  | cons a t ih =>
    intro l2 hp hp1 hp2
    cases l2 with
    | nil => cases hp.eq_nil
    | cons b t2 =>
      rcases eq_or_ne a b with hab | hab
      · subst hab
        have ht : t.Perm t2 := hp.cons_inv
        rw [ih t2 ht (List.pairwise_cons.mp hp1).2 (List.pairwise_cons.mp hp2).2]
      · exfalso
        have hbmem : b ∈ a :: t := hp.symm.subset (List.mem_cons_self b t2)
        have hamem : a ∈ b :: t2 := hp.subset (List.mem_cons_self a t)
        have hb' : b ∈ t := by
          rcases List.mem_cons.mp hbmem with h | h
          · exact absurd h.symm hab
          · exact h
        have ha' : a ∈ t2 := by
          rcases List.mem_cons.mp hamem with h | h
          · exact absurd h hab
          · exact h
        exact hasymm a b ((List.pairwise_cons.mp hp1).1 b hb')
          ((List.pairwise_cons.mp hp2).1 a ha')

/-- Two permuted key lists without duplicate decimal values have the same
insertion sort under any total decimal-monotone comparison: the engine's
sorted projection is determined by the key set. -/
theorem insertionSort_eq_of_perm (r : String → String → Prop) [DecidableRel r]
    (htot : ∀ a b : String, r a b ∨ r b a)
    (htr : ∀ a b c : String, r a b → r b c → r a c)
    (hanti : ∀ a b : String, r a b → r b a → decOf a = decOf b)
    (l1 l2 : List String) (hp : l1.Perm l2) (hnd : l1.Nodup)
    (hinj : ∀ p1 ∈ l1, ∀ p2 ∈ l1, decOf p1 = decOf p2 → p1 = p2) :
    List.insertionSort r l1 = List.insertionSort r l2 := by
  haveI : IsTotal String r := ⟨htot⟩
  haveI : IsTrans String r := ⟨fun a b c => htr a b c⟩
  have hq1 : (List.insertionSort r l1).Perm l1 := List.perm_insertionSort r l1
  have hq2 : (List.insertionSort r l2).Perm l2 := List.perm_insertionSort r l2
  have hperm : (List.insertionSort r l1).Perm (List.insertionSort r l2) :=
    hq1.trans (hp.trans hq2.symm)
  have strict : ∀ (l : List String), (List.insertionSort r l).Perm l →
      l.Nodup → (∀ x ∈ l, x ∈ l1) →
      (List.insertionSort r l).Pairwise fun a b => r a b ∧ ¬ r b a := by
    intro l hq hndl hsub
    have hs : (List.insertionSort r l).Pairwise r := List.sorted_insertionSort r l
    have hne : (List.insertionSort r l).Pairwise (· ≠ ·) := (hq.nodup_iff.mpr hndl)
    refine List.Pairwise.imp_of_mem ?_ (hs.and hne)
    intro a b ha hb hab
    refine ⟨hab.1, fun hba => hab.2 ?_⟩
    exact hinj a (hsub a (hq.subset ha)) b (hsub b (hq.subset hb)) (hanti a b hab.1 hba)
  exact perm_pairwise_asymm_eq (fun a b h1 h2 => h1.2 h2.1) _ _ hperm
    (strict l1 hq1 hnd (fun x hx => hx))
    (strict l2 hq2 (hp.nodup_iff.mp hnd) (fun x hx => hp.symm.subset hx))

/-! ### The diff generator: characterization of `side_diff` -/

/-- The unsorted diff list built inside `side_diff`: removals and changes
from the current side, then additions from the target side. -/
def sideDiffRaw (cur tgt : Dict) (zf : String) : List (String × String) :=
  (cur.filterMap fun pq =>
    match dget tgt pq.1 with
    | none => some (pq.1, zf)
    | some qTgt => if qTgt ≠ pq.2 then some (pq.1, qTgt) else none) ++
  (tgt.filterMap fun pq => if dget cur pq.1 = none then some (pq.1, pq.2) else none)

theorem side_diff_eq (cur tgt : Dict) (side zf : String) :
    side_diff cur tgt side zf =
      if side = "ask" then
        List.insertionSort (fun x y => ascP x.1 y.1) (sideDiffRaw cur tgt zf)
      else List.insertionSort (fun x y => descP x.1 y.1) (sideDiffRaw cur tgt zf) := rfl

theorem side_diff_perm (cur tgt : Dict) (side zf : String) :
    (side_diff cur tgt side zf).Perm (sideDiffRaw cur tgt zf) := by
  rw [side_diff_eq]
  split
  · exact List.perm_insertionSort _ _
  · exact List.perm_insertionSort _ _

theorem mem_sideDiffRaw (cur tgt : Dict) (zf : String)
    (hc : (dkeys cur).Nodup) (ht : (dkeys tgt).Nodup) (p q : String) :
    (p, q) ∈ sideDiffRaw cur tgt zf ↔
      (∃ qc, dget cur p = some qc ∧ dget tgt p = none ∧ q = zf) ∨
      (∃ qc, dget cur p = some qc ∧ dget tgt p = some q ∧ q ≠ qc) ∨
      (dget cur p = none ∧ dget tgt p = some q) := by
  unfold sideDiffRaw
  rw [List.mem_append, List.mem_filterMap, List.mem_filterMap]
  constructor
  · rintro (⟨pq, hm, hf⟩ | ⟨pq, hm, hf⟩)
    · cases hg : dget tgt pq.1 with
      | none =>
        rw [hg] at hf
        replace hf : some (pq.1, zf) = some (p, q) := hf
        simp only [Option.some.injEq, Prod.mk.injEq] at hf
        obtain ⟨hf1, hf2⟩ := hf
        subst hf1
        subst hf2
        exact Or.inl ⟨pq.2, mem_dget cur pq.1 pq.2 hc hm, hg, rfl⟩
      | some qT =>
        rw [hg] at hf
        replace hf : (if qT ≠ pq.2 then some (pq.1, qT) else none) = some (p, q) := hf
        by_cases hne : qT ≠ pq.2
        · rw [if_pos hne] at hf
          simp only [Option.some.injEq, Prod.mk.injEq] at hf
          obtain ⟨hf1, hf2⟩ := hf
          subst hf1
          subst hf2
          exact Or.inr (Or.inl ⟨pq.2, mem_dget cur pq.1 pq.2 hc hm, hg, hne⟩)
        · rw [if_neg hne] at hf
          cases hf
    · replace hf : (if dget cur pq.1 = none then some (pq.1, pq.2) else none) = some (p, q) := hf
      by_cases hcur : dget cur pq.1 = none
      · rw [if_pos hcur] at hf
        simp only [Option.some.injEq, Prod.mk.injEq] at hf
        obtain ⟨hf1, hf2⟩ := hf
        subst hf1
        subst hf2
        exact Or.inr (Or.inr ⟨hcur, mem_dget tgt pq.1 pq.2 ht hm⟩)
      · rw [if_neg hcur] at hf
        cases hf
  · rintro (⟨qc, hcur, htgt, hq⟩ | ⟨qc, hcur, htgt, hq⟩ | ⟨hcur, htgt⟩)
    · refine Or.inl ⟨(p, qc), dget_mem cur p qc hcur, ?_⟩
      show (match dget tgt p with
        | none => some (p, zf)
        | some qTgt => if qTgt ≠ qc then some (p, qTgt) else none) = some (p, q)
      rw [htgt, hq]
    · refine Or.inl ⟨(p, qc), dget_mem cur p qc hcur, ?_⟩
      show (match dget tgt p with
        | none => some (p, zf)
        | some qTgt => if qTgt ≠ qc then some (p, qTgt) else none) = some (p, q)
      rw [htgt]
      show (if q ≠ qc then some (p, q) else none) = some (p, q)
      rw [if_pos hq]
    · refine Or.inr ⟨(p, q), dget_mem tgt p q htgt, ?_⟩
      show (if dget cur p = none then some (p, q) else none) = some (p, q)
      rw [if_pos hcur]

theorem filterMap_keys_sublist (l : List (String × String))
    (f : String × String → Option (String × String))
    (hf : ∀ pq x, f pq = some x → x.1 = pq.1) :
    ((l.filterMap f).map Prod.fst).Sublist (l.map Prod.fst) := by
  induction l with
  | nil => simp
  | cons pq t ih =>
    rw [List.filterMap_cons]
    cases hfp : f pq with
    | none =>
      rw [List.map_cons]
      exact ih.cons _
    | some x =>
      rw [List.map_cons, List.map_cons, hf pq x hfp]
      exact ih.cons₂ _

theorem sideDiffRaw_keys_fn1 (tgt : Dict) (zf : String) (pq x : String × String)
    (hx : (match dget tgt pq.1 with
      | none => some (pq.1, zf)
      | some qTgt => if qTgt ≠ pq.2 then some (pq.1, qTgt) else none) = some x) :
    x.1 = pq.1 := by
  cases hg : dget tgt pq.1 with
  | none =>
    rw [hg] at hx
    cases hx
    rfl
  | some qT =>
    rw [hg] at hx
    replace hx : (if qT ≠ pq.2 then some (pq.1, qT) else none) = some x := hx
    by_cases hne : qT ≠ pq.2
    · rw [if_pos hne] at hx
      cases hx
      rfl
    · rw [if_neg hne] at hx
      cases hx

theorem sideDiffRaw_keys_fn2 (cur : Dict) (pq x : String × String)
    (hx : (if dget cur pq.1 = none then some (pq.1, pq.2) else none) = some x) :
    x.1 = pq.1 := by
  by_cases hcur : dget cur pq.1 = none
  · rw [if_pos hcur] at hx
    cases hx
    rfl
  · rw [if_neg hcur] at hx
    cases hx

theorem sideDiffRaw_keys_nodup (cur tgt : Dict) (zf : String)
    (hc : (dkeys cur).Nodup) (ht : (dkeys tgt).Nodup) :
    ((sideDiffRaw cur tgt zf).map Prod.fst).Nodup := by
  unfold sideDiffRaw
  rw [List.map_append]
  refine List.Nodup.append ?_ ?_ ?_
  · exact hc.sublist (filterMap_keys_sublist cur _ (sideDiffRaw_keys_fn1 tgt zf))
  · exact ht.sublist (filterMap_keys_sublist tgt _ (sideDiffRaw_keys_fn2 cur))
  · intro x hx1 hx2
    rcases List.mem_map.mp hx1 with ⟨y1, hy1, he1⟩
    rcases List.mem_filterMap.mp hy1 with ⟨pq1, hm1, hf1⟩
    rcases List.mem_map.mp hx2 with ⟨y2, hy2, he2⟩
    rcases List.mem_filterMap.mp hy2 with ⟨pq2, hm2, hf2⟩
    have hk1 : y1.1 = pq1.1 := sideDiffRaw_keys_fn1 tgt zf pq1 y1 hf1
    have hk2 : y2.1 = pq2.1 := sideDiffRaw_keys_fn2 cur pq2 y2 hf2
    have hnone : dget cur pq2.1 = none := by
      by_cases hcur : dget cur pq2.1 = none
      · exact hcur
      · rw [if_neg hcur] at hf2
        cases hf2
    have hxcur : x ∈ dkeys cur := by
      rw [← he1, hk1]
      exact List.mem_map_of_mem Prod.fst hm1
    have hxnot : x ∉ dkeys cur := by
      rw [← he2, hk2]
      exact (dget_none_iff cur pq2.1).mp hnone
    exact hxnot hxcur

theorem qtyPosB_exists (q : String) (h : qtyPosB q = true) :
    ∃ r, parseDecimal q = some r ∧ 0 < r := by
  unfold qtyPosB at h
  cases hp : parseDecimal q with
  | none => rw [hp] at h; cases h
  | some r =>
    rw [hp] at h
    replace h : decide (0 < r) = true := h
    exact ⟨r, rfl, by simpa using h⟩

theorem qtyNonnegB_of_pos (q : String) (h : qtyPosB q = true) : qtyNonnegB q = true := by
  rcases qtyPosB_exists q h with ⟨r, hp, hr⟩
  unfold qtyNonnegB
  rw [hp]
  simpa using le_of_lt hr

theorem decOf_ne_zero_of_pos (q : String) (h : qtyPosB q = true) : ¬ decOf q = 0 := by
  rcases qtyPosB_exists q h with ⟨r, hp, hr⟩
  unfold decOf
  rw [hp]
  simpa using ne_of_gt hr

theorem sideDiffRaw_levels_ok (cur tgt : Dict) (zf : String)
    (hcP : SidePrices cur) (htP : SidePrices tgt) (htQ : SidePos tgt)
    (hzf : qtyNonnegB zf = true) :
    ∀ pq ∈ sideDiffRaw cur tgt zf, priceOkB pq.1 = true ∧ qtyNonnegB pq.2 = true := by
  intro pq hm
  unfold sideDiffRaw at hm
  rcases List.mem_append.mp hm with hm1 | hm2
  · rcases List.mem_filterMap.mp hm1 with ⟨src, hsrc, hf⟩
    cases hg : dget tgt src.1 with
    | none =>
      rw [hg] at hf
      cases hf
      exact ⟨hcP src hsrc, hzf⟩
    | some qT =>
      rw [hg] at hf
      replace hf : (if qT ≠ src.2 then some (src.1, qT) else none) = some pq := hf
      by_cases hne : qT ≠ src.2
      · rw [if_pos hne] at hf
        cases hf
        exact ⟨hcP src hsrc, qtyNonnegB_of_pos qT (htQ (src.1, qT) (dget_mem tgt src.1 qT hg))⟩
      · rw [if_neg hne] at hf
        cases hf
  · rcases List.mem_filterMap.mp hm2 with ⟨src, hsrc, hf⟩
    replace hf : (if dget cur src.1 = none then some (src.1, src.2) else none) = some pq := hf
    by_cases hcur : dget cur src.1 = none
    · rw [if_pos hcur] at hf
      cases hf
      exact ⟨htP src hsrc, qtyNonnegB_of_pos src.2 (htQ src hsrc)⟩
    · rw [if_neg hcur] at hf
      cases hf

/-- Applying the generated diff to the current side makes it extensionally
equal to the target side, provided the target's quantities are positive
(a zero target quantity would be re-interpreted as a removal). -/
theorem dget_apply_side_diff (cur tgt : Dict) (side zf : String)
    (hc : (dkeys cur).Nodup) (ht : (dkeys tgt).Nodup)
    (htQ : SidePos tgt) (hzf : decOf zf = 0) (x : String) :
    dget (applyLevels cur (side_diff cur tgt side zf)) x = dget tgt x := by
  have hperm := side_diff_perm cur tgt side zf
  have hkeysnd : ((side_diff cur tgt side zf).map Prod.fst).Nodup :=
    ((hperm.map Prod.fst).nodup_iff).mpr (sideDiffRaw_keys_nodup cur tgt zf hc ht)
  rw [dget_applyLevels _ cur x hc hkeysnd]
  cases hL : dget (side_diff cur tgt side zf) x with
  | some q =>
    show (if decOf q = 0 then none else some q) = dget tgt x
    have hmem : (x, q) ∈ sideDiffRaw cur tgt zf :=
      hperm.subset (dget_mem _ x q hL)
    rcases (mem_sideDiffRaw cur tgt zf hc ht x q).mp hmem with
      ⟨qc, hcur, htgt, hq⟩ | ⟨qc, hcur, htgt, hq⟩ | ⟨hcur, htgt⟩
    · subst hq
      rw [if_pos hzf, htgt]
    · have hnz : ¬ decOf q = 0 :=
        decOf_ne_zero_of_pos q (htQ (x, q) (dget_mem tgt x q htgt))
      rw [if_neg hnz, htgt]
    · have hnz : ¬ decOf q = 0 :=
        decOf_ne_zero_of_pos q (htQ (x, q) (dget_mem tgt x q htgt))
      rw [if_neg hnz, htgt]
  | none =>
    show dget cur x = dget tgt x
    have hnotin : ∀ q', ¬ (x, q') ∈ sideDiffRaw cur tgt zf := by
      intro q' hq'
      have hmem : (x, q') ∈ side_diff cur tgt side zf := hperm.mem_iff.mpr hq'
      have : x ∈ (side_diff cur tgt side zf).map Prod.fst :=
        List.mem_map_of_mem Prod.fst hmem
      exact (dget_none_iff _ x).mp hL this
    cases hcur : dget cur x with
    | some qc =>
      cases htgt : dget tgt x with
      | none =>
        exact absurd ((mem_sideDiffRaw cur tgt zf hc ht x zf).mpr
          (Or.inl ⟨qc, hcur, htgt, rfl⟩)) (hnotin zf)
      | some qt =>
        rcases eq_or_ne qt qc with he | hne
        · rw [he]
        · exact absurd ((mem_sideDiffRaw cur tgt zf hc ht x qt).mpr
            (Or.inr (Or.inl ⟨qc, hcur, htgt, hne⟩))) (hnotin qt)
    | none =>
      cases htgt : dget tgt x with
      | none => rfl
      | some qt =>
        exact absurd ((mem_sideDiffRaw cur tgt zf hc ht x qt).mpr
          (Or.inr (Or.inr ⟨hcur, htgt⟩))) (hnotin qt)

/-! ### Projection extensionality -/

/-- Two key-unique sides that agree as maps, where the reference side has
decimal-distinct price texts, have identical sorted projections. -/
theorem sorted_side_ext (d1 d2 : Dict) (side : String)
    (h1 : (dkeys d1).Nodup) (h2 : (dkeys d2).Nodup)
    (hext : ∀ p, dget d1 p = dget d2 p)
    (hinj : SideDecInj d2) :
    sorted_side d1 side = sorted_side d2 side := by
  have hmemiff : ∀ p, p ∈ dkeys d1 ↔ p ∈ dkeys d2 := by
    intro p
    constructor
    · intro h
      by_contra hcon
      have hn : dget d2 p = none := (dget_none_iff d2 p).mpr hcon
      rw [← hext p] at hn
      exact ((dget_none_iff d1 p).mp hn) h
    · intro h
      by_contra hcon
      have hn : dget d1 p = none := (dget_none_iff d1 p).mpr hcon
      rw [hext p] at hn
      exact ((dget_none_iff d2 p).mp hn) h
  have hperm : (dkeys d1).Perm (dkeys d2) :=
    (List.perm_ext_iff_of_nodup h1 h2).mpr hmemiff
  have hinj1 : ∀ p1 ∈ dkeys d1, ∀ p2 ∈ dkeys d1, decOf p1 = decOf p2 → p1 = p2 :=
    fun p1 hp1 p2 hp2 he =>
      hinj p1 ((hmemiff p1).mp hp1) p2 ((hmemiff p2).mp hp2) he
  have hmap : ∀ ks : List String,
      ks.map (fun p => (p, (dget d1 p).getD "")) =
        ks.map (fun p => (p, (dget d2 p).getD "")) := by
    intro ks
    exact List.map_congr_left (fun a _ => by rw [hext a])
  unfold sorted_side
  rcases eq_or_ne side "ask" with hs | hs
  · simp only [if_pos hs]
    rw [insertionSort_eq_of_perm ascP (fun a b => le_total (decOf a) (decOf b))
      (fun a b c hab hbc => le_trans hab hbc)
      (fun a b hab hba => le_antisymm hab hba) (dkeys d1) (dkeys d2) hperm h1 hinj1]
    exact hmap _
  · simp only [if_neg hs]
    rw [insertionSort_eq_of_perm descP (fun a b => (le_total (decOf a) (decOf b)).symm)
      (fun a b c hab hbc => le_trans hbc hab)
      (fun a b hab hba => le_antisymm hba hab) (dkeys d1) (dkeys d2) hperm h1 hinj1]
    exact hmap _

/-! ### Store lemmas and simulation of the reference run -/

/-- The book state a (possibly failing) event run leaves behind: events
are applied until the first error, whose partial state is kept. -/
def applyUpto : Book → List UpdEvent → Book
  | book, [] => book
  | book, ev :: rest =>
    match apply_event book ev with
    | (b1, none) => applyUpto b1 rest
    | (b1, some _) => b1

theorem readRef_writeRef_ne (s : Store) (r1 r2 : Nat) (d : Dict) (h : r1 ≠ r2) :
    readRef (writeRef s r1 d) r2 = readRef s r2 := by
  unfold readRef writeRef List.getD
  rw [List.get?_eq_getElem?, List.get?_eq_getElem?, List.getElem?_set_ne h]

theorem readRef_writeRef_self (s : Store) (r : Nat) (d : Dict) (h : r < s.length) :
    readRef (writeRef s r d) r = d := by
  unfold readRef writeRef List.getD
  rw [List.get?_eq_getElem?, List.getElem?_set_eq_of_lt d h]
  rfl

theorem readRef_append (s s2 : Store) (i : Nat) (h : i < s.length) :
    readRef (s ++ s2) i = readRef s i := by
  unfold readRef List.getD
  rw [List.get?_eq_getElem?, List.get?_eq_getElem?, List.getElem?_append, if_pos h]

theorem readRef_concat_self (s : Store) (d : Dict) :
    readRef (s ++ [d]) s.length = d := by
  unfold readRef List.getD
  rw [List.get?_eq_getElem?, List.getElem?_append, if_neg (lt_irrefl _)]
  simp

theorem length_writeRef (s : Store) (r : Nat) (d : Dict) :
    (writeRef s r d).length = s.length := by
  unfold writeRef
  exact List.length_set s r d

theorem applyEventRef_spec (s : Store) (w : BookRef) (ev : UpdEvent)
    (hne : w.ask ≠ w.bid) (hA : w.ask < s.length) (hB : w.bid < s.length) :
    (∀ i, i ≠ w.ask → i ≠ w.bid → readRef (applyEventRef s w ev).1 i = readRef s i) ∧
    (applyEventRef s w ev).1.length = s.length ∧
    readBook (applyEventRef s w ev).1 w = (apply_event (readBook s w) ev).1 ∧
    (applyEventRef s w ev).2 = (apply_event (readBook s w) ev).2 := by
  refine ⟨?_, ?_, ?_, rfl⟩
  · intro i hia hib
    show readRef (writeRef (writeRef s w.ask _) w.bid _) i = readRef s i
    rw [readRef_writeRef_ne _ _ _ _ (Ne.symm hib), readRef_writeRef_ne _ _ _ _ (Ne.symm hia)]
  · show (writeRef (writeRef s w.ask _) w.bid _).length = s.length
    rw [length_writeRef, length_writeRef]
  · show readBook (writeRef (writeRef s w.ask _) w.bid _) w = _
    unfold readBook
    rw [readRef_writeRef_ne _ _ _ _ (Ne.symm hne),
      readRef_writeRef_self s w.ask _ hA,
      readRef_writeRef_self _ w.bid _ (by rw [length_writeRef]; exact hB)]

theorem strideLoopRef_spec (k : Nat) (events : List UpdEvent) :
    ∀ (s : Store) (w : BookRef) (n : Nat), w.ask ≠ w.bid →
      w.ask < s.length → w.bid < s.length →
      (∀ i, i ≠ w.ask → i ≠ w.bid →
        readRef (strideLoopRef k s w n events).1 i = readRef s i) ∧
      (strideLoopRef k s w n events).1.length = s.length ∧
      readBook (strideLoopRef k s w n events).1 w = applyUpto (readBook s w) events ∧
      (strideLoopRef k s w n events).2 = strideLoop k (readBook s w) n events := by
  induction events with
  | nil =>
    intro s w n hne hA hB
    exact ⟨fun i _ _ => rfl, rfl, rfl, rfl⟩
  | cons ev rest ih =>
    intro s w n hne hA hB
    rcases applyEventRef_spec s w ev hne hA hB with ⟨hfr1, hlen1, hbook1, herr1⟩
    rcases hAE : applyEventRef s w ev with ⟨s1, err⟩
    rw [hAE] at hfr1 hlen1 hbook1 herr1
    rcases hPE : apply_event (readBook s w) ev with ⟨b1, perr⟩
    rw [hPE] at hbook1 herr1
    dsimp only at hfr1 hlen1 hbook1 herr1
    subst err
    cases perr with
    | some e =>
      have hup : applyUpto (readBook s w) (ev :: rest) = b1 := by
        show (match apply_event (readBook s w) ev with
          | (b2, none) => applyUpto b2 rest
          | (b2, some _) => b2) = b1
        rw [hPE]
      have hpure : strideLoop k (readBook s w) n (ev :: rest) = Except.error e := by
        show (match apply_event (readBook s w) ev with
          | (book1, none) =>
            match strideLoop k book1 (n + 1) rest with
            | Except.error e2 => Except.error e2
            | Except.ok states =>
              Except.ok (if (n + 1) % k = 0 then book_to_levels book1 :: states else states)
          | (_, some e2) => Except.error e2) = Except.error e
        rw [hPE]
      have href : strideLoopRef k s w n (ev :: rest) = (s1, Except.error e) := by
        show (match applyEventRef s w ev with
          | (s2, none) =>
            match strideLoopRef k s2 w (n + 1) rest with
            | (s3, Except.error e2) => (s3, Except.error e2)
            | (s3, Except.ok states) =>
              (s3, Except.ok (if (n + 1) % k = 0 then book_to_levels (readBook s2 w) :: states
                        else states))
          | (s2, some e2) => (s2, Except.error e2)) = (s1, Except.error e)
        rw [hAE]
      rw [href, hpure, hup]
      exact ⟨hfr1, hlen1, hbook1, rfl⟩
    | none =>
      have hup : applyUpto (readBook s w) (ev :: rest) = applyUpto b1 rest := by
        show (match apply_event (readBook s w) ev with
          | (b2, none) => applyUpto b2 rest
          | (b2, some _) => b2) = applyUpto b1 rest
        rw [hPE]
      have hpure : strideLoop k (readBook s w) n (ev :: rest) =
          (match strideLoop k b1 (n + 1) rest with
            | Except.error e2 => Except.error e2
            | Except.ok states =>
              Except.ok (if (n + 1) % k = 0 then book_to_levels b1 :: states else states)) := by
        show (match apply_event (readBook s w) ev with
          | (book1, none) =>
            match strideLoop k book1 (n + 1) rest with
            | Except.error e2 => Except.error e2
            | Except.ok states =>
              Except.ok (if (n + 1) % k = 0 then book_to_levels book1 :: states else states)
          | (_, some e2) => Except.error e2) = _
        rw [hPE]
      have href : strideLoopRef k s w n (ev :: rest) =
          (match strideLoopRef k s1 w (n + 1) rest with
            | (s3, Except.error e2) => (s3, Except.error e2)
            | (s3, Except.ok states) =>
              (s3, Except.ok (if (n + 1) % k = 0 then book_to_levels (readBook s1 w) :: states
                        else states))) := by
        show (match applyEventRef s w ev with
          | (s2, none) =>
            match strideLoopRef k s2 w (n + 1) rest with
            | (s3, Except.error e2) => (s3, Except.error e2)
            | (s3, Except.ok states) =>
              (s3, Except.ok (if (n + 1) % k = 0 then book_to_levels (readBook s2 w) :: states
                        else states))
          | (s2, some e2) => (s2, Except.error e2)) = _
        rw [hAE]
      rcases ih s1 w (n + 1) hne (hlen1 ▸ hA) (hlen1 ▸ hB) with ⟨hfr2, hlen2, hbook2, hprog2⟩
      rcases hL2 : strideLoopRef k s1 w (n + 1) rest with ⟨s2, res2⟩
      rw [hL2] at hfr2 hlen2 hbook2 hprog2
      dsimp only at hfr2 hlen2 hbook2 hprog2
      rw [href, hpure, hup, hL2, ← hbook1, ← hprog2]
      cases res2 with
      | error e =>
        exact ⟨fun i hia hib => (hfr2 i hia hib).trans (hfr1 i hia hib),
          hlen2.trans hlen1, hbook2, rfl⟩
      | ok states =>
        exact ⟨fun i hia hib => (hfr2 i hia hib).trans (hfr1 i hia hib),
          hlen2.trans hlen1, hbook2, rfl⟩

theorem applyAllRef_spec (events : List UpdEvent) :
    ∀ (s : Store) (w : BookRef), w.ask ≠ w.bid →
      w.ask < s.length → w.bid < s.length →
      (∀ i, i ≠ w.ask → i ≠ w.bid →
        readRef (applyAllRef s w events).1 i = readRef s i) ∧
      (applyAllRef s w events).1.length = s.length ∧
      readBook (applyAllRef s w events).1 w = applyUpto (readBook s w) events ∧
      (applyAllRef s w events).2 = (applyAllE (readBook s w) events).map (fun _ => ()) := by
  induction events with
  | nil =>
    intro s w n hA hB
    exact ⟨fun i _ _ => rfl, rfl, rfl, rfl⟩
  | cons ev rest ih =>
    intro s w hne hA hB
    rcases applyEventRef_spec s w ev hne hA hB with ⟨hfr1, hlen1, hbook1, herr1⟩
    rcases hAE : applyEventRef s w ev with ⟨s1, err⟩
    rw [hAE] at hfr1 hlen1 hbook1 herr1
    rcases hPE : apply_event (readBook s w) ev with ⟨b1, perr⟩
    rw [hPE] at hbook1 herr1
    dsimp only at hfr1 hlen1 hbook1 herr1
    subst err
    cases perr with
    | some e =>
      have hup : applyUpto (readBook s w) (ev :: rest) = b1 := by
        show (match apply_event (readBook s w) ev with
          | (b2, none) => applyUpto b2 rest
          | (b2, some _) => b2) = b1
        rw [hPE]
      have hpure : applyAllE (readBook s w) (ev :: rest) = Except.error e := by
        show (match apply_event (readBook s w) ev with
          | (book1, none) => applyAllE book1 rest
          | (_, some e2) => Except.error e2) = Except.error e
        rw [hPE]
      have href : applyAllRef s w (ev :: rest) = (s1, Except.error e) := by
        show (match applyEventRef s w ev with
          | (s2, none) => applyAllRef s2 w rest
          | (s2, some e2) => (s2, Except.error e2)) = (s1, Except.error e)
        rw [hAE]
      rw [href, hpure, hup]
      exact ⟨hfr1, hlen1, hbook1, rfl⟩
    | none =>
      have hup : applyUpto (readBook s w) (ev :: rest) = applyUpto b1 rest := by
        show (match apply_event (readBook s w) ev with
          | (b2, none) => applyUpto b2 rest
          | (b2, some _) => b2) = applyUpto b1 rest
        rw [hPE]
      have hpure : applyAllE (readBook s w) (ev :: rest) = applyAllE b1 rest := by
        show (match apply_event (readBook s w) ev with
          | (book1, none) => applyAllE book1 rest
          | (_, some e2) => Except.error e2) = applyAllE b1 rest
        rw [hPE]
      have href : applyAllRef s w (ev :: rest) = applyAllRef s1 w rest := by
        show (match applyEventRef s w ev with
          | (s2, none) => applyAllRef s2 w rest
          | (s2, some e2) => (s2, Except.error e2)) = applyAllRef s1 w rest
        rw [hAE]
      rcases ih s1 w hne (hlen1 ▸ hA) (hlen1 ▸ hB) with ⟨hfr2, hlen2, hbook2, hprog2⟩
      rw [href, hpure, hup, ← hbook1]
      exact ⟨fun i hia hib => (hfr2 i hia hib).trans (hfr1 i hia hib),
        hlen2.trans hlen1, hbook2, hprog2⟩

theorem applyAllE_eq_applyUpto (events : List UpdEvent) :
    ∀ (book b' : Book), applyAllE book events = .ok b' → b' = applyUpto book events := by
  induction events with
  | nil =>
    intro book b' h
    cases h
    rfl
  | cons ev rest ih =>
    intro book b' h
    unfold applyAllE at h
    rcases hPE : apply_event book ev with ⟨b1, perr⟩
    rw [hPE] at h
    show b' = (match apply_event book ev with
      | (b2, none) => applyUpto b2 rest
      | (b2, some _) => b2)
    rw [hPE]
    cases perr with
    | none => exact ih b1 b' h
    | some e => exact absurd h (by simp)

/-! ### Claim C9: frame property of the sampler run -/

/-- C9: the run mutates only the two working dictionaries freshly
allocated by the line-250 copy: the initial book's dictionaries are left
exactly unchanged on both sides, the emitted projections equal the pure
sampler output computed from the initial book's value, and the revert
event equals the pure diff of the run's final working book against the
unchanged initial book — every output is a fully determined value with no
aliasing of the engine's mutable state. -/
theorem sampler_frame (s : Store) (br : BookRef) (events : List UpdEvent)
    (final_only : Bool) (store_every : Int)
    (hA : br.ask < s.length) (hB : br.bid < s.length) :
    readRef (mainRunRef s br events final_only store_every).1 br.ask =
      readRef s br.ask ∧
    readRef (mainRunRef s br events final_only store_every).1 br.bid =
      readRef s br.bid ∧
    (mainRunRef s br events final_only store_every).2.1 =
      run_sampler (readBook s br) events final_only store_every ∧
    (mainRunRef s br events final_only store_every).2.2 =
      generate_revert_update (applyUpto (readBook s br) events) (readBook s br) := by
  have hcopy : copyBookRef s br =
      ((s ++ [readRef s br.ask]) ++ [readRef (s ++ [readRef s br.ask]) br.bid],
       ⟨s.length, s.length + 1⟩) := by
    show ((s ++ [readRef s br.ask]) ++ [readRef (s ++ [readRef s br.ask]) br.bid],
      (⟨s.length, (s ++ [readRef s br.ask]).length⟩ : BookRef)) = _
    rw [List.length_append]
    rfl
  have hlenA : (s ++ [readRef s br.ask]).length = s.length + 1 := by simp
  have hlen' : ((s ++ [readRef s br.ask]) ++
      [readRef (s ++ [readRef s br.ask]) br.bid]).length = s.length + 2 := by simp
  have hwork : readBook ((s ++ [readRef s br.ask]) ++
      [readRef (s ++ [readRef s br.ask]) br.bid]) ⟨s.length, s.length + 1⟩ =
      readBook s br := by
    unfold readBook
    have h1 : readRef ((s ++ [readRef s br.ask]) ++
        [readRef (s ++ [readRef s br.ask]) br.bid]) s.length = readRef s br.ask := by
      rw [readRef_append _ _ _ (by rw [hlenA]; omega)]
      exact readRef_concat_self s _
    have h2 : readRef ((s ++ [readRef s br.ask]) ++
        [readRef (s ++ [readRef s br.ask]) br.bid]) (s.length + 1) =
        readRef s br.bid := by
      rw [← hlenA, readRef_concat_self]
      exact readRef_append s _ br.bid hB
    rw [h1, h2]
  have hframeA : readRef ((s ++ [readRef s br.ask]) ++
      [readRef (s ++ [readRef s br.ask]) br.bid]) br.ask = readRef s br.ask := by
    rw [readRef_append _ _ _ (by rw [hlenA]; omega)]
    exact readRef_append s _ br.ask hA
  have hframeB : readRef ((s ++ [readRef s br.ask]) ++
      [readRef (s ++ [readRef s br.ask]) br.bid]) br.bid = readRef s br.bid := by
    rw [readRef_append _ _ _ (by rw [hlenA]; omega)]
    exact readRef_append s _ br.bid hB
  have hneW : (⟨s.length, s.length + 1⟩ : BookRef).ask ≠
      (⟨s.length, s.length + 1⟩ : BookRef).bid := by
    show s.length ≠ s.length + 1
    omega
  have hWA : (⟨s.length, s.length + 1⟩ : BookRef).ask < ((s ++ [readRef s br.ask]) ++
      [readRef (s ++ [readRef s br.ask]) br.bid]).length := by
    rw [hlen']
    show s.length < s.length + 2
    omega
  have hWB : (⟨s.length, s.length + 1⟩ : BookRef).bid < ((s ++ [readRef s br.ask]) ++
      [readRef (s ++ [readRef s br.ask]) br.bid]).length := by
    rw [hlen']
    show s.length + 1 < s.length + 2
    omega
  have hbrA1 : br.ask ≠ (⟨s.length, s.length + 1⟩ : BookRef).ask := by
    show br.ask ≠ s.length
    omega
  have hbrA2 : br.ask ≠ (⟨s.length, s.length + 1⟩ : BookRef).bid := by
    show br.ask ≠ s.length + 1
    omega
  have hbrB1 : br.bid ≠ (⟨s.length, s.length + 1⟩ : BookRef).ask := by
    show br.bid ≠ s.length
    omega
  have hbrB2 : br.bid ≠ (⟨s.length, s.length + 1⟩ : BookRef).bid := by
    show br.bid ≠ s.length + 1
    omega
  cases final_only with
  | false =>
    rcases strideLoopRef_spec (max 1 store_every).toNat events
      ((s ++ [readRef s br.ask]) ++ [readRef (s ++ [readRef s br.ask]) br.bid])
      ⟨s.length, s.length + 1⟩ 0 hneW hWA hWB with ⟨hfr, _, hbook, hprog⟩
    have hmm : mainRunRef s br events false store_every =
        ((strideLoopRef (max 1 store_every).toNat
            ((s ++ [readRef s br.ask]) ++ [readRef (s ++ [readRef s br.ask]) br.bid])
            ⟨s.length, s.length + 1⟩ 0 events).1,
         (strideLoopRef (max 1 store_every).toNat
            ((s ++ [readRef s br.ask]) ++ [readRef (s ++ [readRef s br.ask]) br.bid])
            ⟨s.length, s.length + 1⟩ 0 events).2,
         generate_revert_update
           (readBook (strideLoopRef (max 1 store_every).toNat
              ((s ++ [readRef s br.ask]) ++ [readRef (s ++ [readRef s br.ask]) br.bid])
              ⟨s.length, s.length + 1⟩ 0 events).1 ⟨s.length, s.length + 1⟩)
           (readBook (strideLoopRef (max 1 store_every).toNat
              ((s ++ [readRef s br.ask]) ++ [readRef (s ++ [readRef s br.ask]) br.bid])
              ⟨s.length, s.length + 1⟩ 0 events).1 br)) := by
      unfold mainRunRef
      rw [hcopy]
      rfl
    rw [hmm]
    refine ⟨?_, ?_, ?_, ?_⟩
    · exact (hfr br.ask hbrA1 hbrA2).trans hframeA
    · exact (hfr br.bid hbrB1 hbrB2).trans hframeB
    · rw [hprog, hwork]
      rfl
    · have hib : readBook (strideLoopRef (max 1 store_every).toNat
          ((s ++ [readRef s br.ask]) ++ [readRef (s ++ [readRef s br.ask]) br.bid])
          ⟨s.length, s.length + 1⟩ 0 events).1 br = readBook s br := by
        unfold readBook
        rw [(hfr br.ask hbrA1 hbrA2).trans hframeA, (hfr br.bid hbrB1 hbrB2).trans hframeB]
      rw [hib, hbook, hwork]
  | true =>
    rcases applyAllRef_spec events
      ((s ++ [readRef s br.ask]) ++ [readRef (s ++ [readRef s br.ask]) br.bid])
      ⟨s.length, s.length + 1⟩ hneW hWA hWB with ⟨hfr, _, hbook, hprog⟩
    rw [hwork] at hprog hbook
    rcases hAR : (applyAllRef
        ((s ++ [readRef s br.ask]) ++ [readRef (s ++ [readRef s br.ask]) br.bid])
        ⟨s.length, s.length + 1⟩ events) with ⟨s1, res⟩
    rw [hAR] at hfr hbook hprog
    dsimp only at hfr hbook hprog
    have hib : readBook s1 br = readBook s br := by
      unfold readBook
      rw [(hfr br.ask hbrA1 hbrA2).trans hframeA, (hfr br.bid hbrB1 hbrB2).trans hframeB]
    cases hE : applyAllE (readBook s br) events with
    | ok b' =>
      rw [hE] at hprog
      have hres : res = .ok () := hprog
      subst hres
      have hmm : mainRunRef s br events true store_every =
          (s1, .ok [book_to_levels (readBook s1 ⟨s.length, s.length + 1⟩)],
           generate_revert_update (readBook s1 ⟨s.length, s.length + 1⟩)
             (readBook s1 br)) := by
        unfold mainRunRef
        rw [hcopy]
        dsimp only
        rw [hAR]
        rfl
      rw [hmm, hbook, hib]
      refine ⟨(hfr br.ask hbrA1 hbrA2).trans hframeA,
        (hfr br.bid hbrB1 hbrB2).trans hframeB, ?_, rfl⟩
      have hpure : run_sampler (readBook s br) events true store_every =
          .ok [book_to_levels b'] := by
        show (match applyAllE (readBook s br) events with
          | Except.error e => Except.error e
          | Except.ok bookF => Except.ok [book_to_levels bookF]) = _
        rw [hE]
      rw [hpure, applyAllE_eq_applyUpto events (readBook s br) b' hE]
    | error e =>
      rw [hE] at hprog
      have hres : res = .error e := hprog
      subst hres
      have hmm : mainRunRef s br events true store_every =
          (s1, .error e,
           generate_revert_update (readBook s1 ⟨s.length, s.length + 1⟩)
             (readBook s1 br)) := by
        unfold mainRunRef
        rw [hcopy]
        dsimp only
        rw [hAR]
        rfl
      rw [hmm, hbook, hib]
      refine ⟨(hfr br.ask hbrA1 hbrA2).trans hframeA,
        (hfr br.bid hbrB1 hbrB2).trans hframeB, ?_, rfl⟩
      have hpure : run_sampler (readBook s br) events true store_every = .error e := by
        show (match applyAllE (readBook s br) events with
          | Except.error e2 => Except.error e2
          | Except.ok bookF => Except.ok [book_to_levels bookF]) = _
        rw [hE]
      rw [hpure]

/-- Witness for `sampler_frame`: a one-dictionary-per-side store, one
event, stride mode. -/
theorem sampler_frame_witness :
    readRef (mainRunRef [[("1", "2")], [("3", "4")]] ⟨0, 1⟩
      [⟨some (.arr []), some (.arr [])⟩] false 1).1 0 = [("1", "2")] :=
  ((sampler_frame [[("1", "2")], [("3", "4")]] ⟨0, 1⟩
    [⟨some (.arr []), some (.arr [])⟩] false 1 (by decide) (by decide)).1).trans rfl

/-! ### Round-trip machinery -/

theorem applyAll_WF (E : List UpdEvent) :
    ∀ B : Book, SideWF B.ask → SideWF B.bid → (∀ e ∈ E, validEvent e) →
      SideWF (applyAll B E).ask ∧ SideWF (applyAll B E).bid := by
  induction E with
  | nil => exact fun B hA hB _ => ⟨hA, hB⟩
  | cons ev rest ih =>
    intro B hA hB hv
    rcases apply_event_of_valid B ev (hv ev (List.mem_cons_self _ _)) with
      ⟨bs, asLs, hb, ha, happ⟩
    have hstep : applyAll B (ev :: rest) =
        applyAll ⟨applyLevels B.ask asLs, applyLevels B.bid bs⟩ rest := by
      unfold applyAll
      rw [List.foldl_cons]
      have : (apply_event B ev).1 = ⟨applyLevels B.ask asLs, applyLevels B.bid bs⟩ := by
        rw [happ]
      rw [this]
    rw [hstep]
    exact ih ⟨applyLevels B.ask asLs, applyLevels B.bid bs⟩
      (SideWF_applyLevels B.ask asLs hA (parse_levels_ok_mem _ "asks" asLs ha))
      (SideWF_applyLevels B.bid bs hB (parse_levels_ok_mem _ "bids" bs hb))
      (fun e he => hv e (List.mem_cons_of_mem _ he))

/-- Applying the generated revert event to the current book succeeds and
produces a book whose projection is the target's, provided both books are
well-formed and the target has no duplicate-decimal price texts. -/
theorem apply_revert (cur tgt : Book)
    (hcA : SideWF cur.ask) (hcB : SideWF cur.bid)
    (htA : SideWF tgt.ask) (htB : SideWF tgt.bid)
    (hinjA : SideDecInj tgt.ask) (hinjB : SideDecInj tgt.bid) :
    ∃ B', apply_event cur (revertEvent (generate_revert_update cur tgt)) = (B', none) ∧
      book_to_levels B' = book_to_levels tgt := by
  have hzfn : qtyNonnegB "0.00000000" = true := by decide
  have hzf0 : decOf "0.00000000" = 0 := by decide
  have hbLev : ∀ pq ∈ side_diff cur.bid tgt.bid "bid" "0.00000000",
      priceOkB pq.1 = true ∧ qtyNonnegB pq.2 = true := fun pq hm =>
    sideDiffRaw_levels_ok cur.bid tgt.bid _ hcB.2.1 htB.2.1 htB.2.2 hzfn pq
      ((side_diff_perm _ _ _ _).subset hm)
  have haLev : ∀ pq ∈ side_diff cur.ask tgt.ask "ask" "0.00000000",
      priceOkB pq.1 = true ∧ qtyNonnegB pq.2 = true := fun pq hm =>
    sideDiffRaw_levels_ok cur.ask tgt.ask _ hcA.2.1 htA.2.1 htA.2.2 hzfn pq
      ((side_diff_perm _ _ _ _).subset hm)
  have hb : parse_levels (revertEvent (generate_revert_update cur tgt)).b "bids" =
      .ok (side_diff cur.bid tgt.bid "bid" "0.00000000") :=
    parse_levels_encode "bids" _ hbLev
  have ha : parse_levels (revertEvent (generate_revert_update cur tgt)).a "asks" =
      .ok (side_diff cur.ask tgt.ask "ask" "0.00000000") :=
    parse_levels_encode "asks" _ haLev
  have happ := apply_event_ok cur (revertEvent (generate_revert_update cur tgt)) _ _ hb ha
  refine ⟨_, happ, ?_⟩
  have h1 : sorted_side (applyLevels cur.ask (side_diff cur.ask tgt.ask "ask" "0.00000000"))
      "ask" = sorted_side tgt.ask "ask" :=
    sorted_side_ext _ _ "ask" (nodup_applyLevels _ _ hcA.1) htA.1
      (fun p => dget_apply_side_diff cur.ask tgt.ask "ask" "0.00000000" hcA.1 htA.1
        htA.2.2 hzf0 p) hinjA
  have h2 : sorted_side (applyLevels cur.bid (side_diff cur.bid tgt.bid "bid" "0.00000000"))
      "bid" = sorted_side tgt.bid "bid" :=
    sorted_side_ext _ _ "bid" (nodup_applyLevels _ _ hcB.1) htB.1
      (fun p => dget_apply_side_diff cur.bid tgt.bid "bid" "0.00000000" hcB.1 htB.1
        htB.2.2 hzf0 p) hinjB
  show book_to_levels _ = book_to_levels tgt
  unfold book_to_levels
  rw [h1, h2]

/-! ### Claim C1: the round-trip property -/

/-- C1 is false on the code as stated: with an initial book whose bid
side holds the two distinct price texts "1.0" and "1.00" (equal decimal
value), a valid event removing "1.0" followed by the generated revert
yields a book that equals the initial book as a map, but whose stable
decimal sort lists the two equal-decimal levels in the opposite order, so
the projections differ level for level. -/
theorem round_trip_counterexample :
    validEvent cexRT_ev ∧
    (apply_event (applyAll cexRT_B0 [cexRT_ev])
      (revertEvent (generate_revert_update (applyAll cexRT_B0 [cexRT_ev]) cexRT_B0))).2 =
      none ∧
    book_to_levels (apply_event (applyAll cexRT_B0 [cexRT_ev])
      (revertEvent (generate_revert_update (applyAll cexRT_B0 [cexRT_ev]) cexRT_B0))).1 ≠
      book_to_levels cexRT_B0 :=
  ⟨by decide, rfl, by decide⟩

/-- C1 amended: for every well-formed initial book `B0` (unique keys,
parsing prices, strictly positive quantities) in which no side holds two
different price texts with the same decimal value, and every sequence of
valid delta events, applying the generated revert event to the final book
succeeds and yields a book whose projection equals `B0`'s projection
exactly, level for level on both sides. -/
theorem round_trip (B0 : Book) (E : List UpdEvent)
    (hA : SideWF B0.ask) (hB : SideWF B0.bid)
    (hIA : SideDecInj B0.ask) (hIB : SideDecInj B0.bid)
    (hE : ∀ e ∈ E, validEvent e) :
    ∃ B', apply_event (applyAll B0 E)
        (revertEvent (generate_revert_update (applyAll B0 E) B0)) = (B', none) ∧
      book_to_levels B' = book_to_levels B0 := by
  rcases applyAll_WF E B0 hA hB hE with ⟨hfA, hfB⟩
  exact apply_revert (applyAll B0 E) B0 hfA hfB hA hB hIA hIB

/-- Witness for `round_trip` at the concrete scenario book and event. -/
theorem round_trip_witness :
    ∃ B', apply_event (applyAll ⟨[("100.5", "2")], [("100.0", "3")]⟩ [scenario_event])
        (revertEvent (generate_revert_update
          (applyAll ⟨[("100.5", "2")], [("100.0", "3")]⟩ [scenario_event])
          ⟨[("100.5", "2")], [("100.0", "3")]⟩)) = (B', none) ∧
      book_to_levels B' = book_to_levels ⟨[("100.5", "2")], [("100.0", "3")]⟩ :=
  round_trip ⟨[("100.5", "2")], [("100.0", "3")]⟩ [scenario_event]
    (by decide) (by decide) (by decide) (by decide) (by decide)

/-! ### Claim C6: sampler capture counts -/

theorem applyAllE_ok (events : List UpdEvent) :
    ∀ book : Book, (∀ e ∈ events, validEvent e) →
      ∃ b', applyAllE book events = .ok b' := by
  induction events with
  | nil => exact fun book _ => ⟨book, rfl⟩
  | cons ev rest ih =>
    intro book hv
    rcases apply_event_of_valid book ev (hv ev (List.mem_cons_self _ _)) with
      ⟨bs, asLs, _, _, happ⟩
    rcases ih _ (fun e he => hv e (List.mem_cons_of_mem _ he)) with ⟨b', hb'⟩
    refine ⟨b', ?_⟩
    unfold applyAllE
    rw [happ]
    exact hb'

theorem strideLoop_ok_length (k : Nat) (events : List UpdEvent) :
    ∀ (book : Book) (n : Nat), (∀ e ∈ events, validEvent e) →
      ∃ ps, strideLoop k book n events = .ok ps ∧
        ps.length = (n + events.length) / k - n / k := by
  induction events with
  | nil =>
    intro book n _
    exact ⟨[], rfl, by simp⟩
  | cons ev rest ih =>
    intro book n hv
    rcases apply_event_of_valid book ev (hv ev (List.mem_cons_self _ _)) with
      ⟨bs, asLs, _, _, happ⟩
    rcases ih _ (n + 1) (fun e he => hv e (List.mem_cons_of_mem _ he)) with ⟨ps, hps, hlen⟩
    unfold strideLoop
    rw [happ]
    dsimp only
    rw [hps]
    dsimp only [List.length_cons]
    rw [show n + (rest.length + 1) = n + 1 + rest.length by omega]
    by_cases hdvd : (n + 1) % k = 0
    · have hB : (n + 1) / k = n / k + 1 :=
        Nat.succ_div_of_dvd (Nat.dvd_iff_mod_eq_zero.mpr hdvd)
      have hmono : (n + 1) / k ≤ (n + 1 + rest.length) / k :=
        Nat.div_le_div_right (by omega)
      refine ⟨_, rfl, ?_⟩
      rw [if_pos hdvd]
      dsimp only [List.length_cons]
      omega
    · have hB : (n + 1) / k = n / k :=
        Nat.succ_div_of_not_dvd (fun hd => hdvd (Nat.dvd_iff_mod_eq_zero.mp hd))
      refine ⟨_, rfl, ?_⟩
      rw [if_neg hdvd]
      omega

/-- C6: over `N` valid events, stride 1 stores exactly `N` projections,
a positive stride `k` stores exactly `⌊N/k⌋`, any stride ≤ 0 behaves
exactly as stride 1, and final-only stores exactly one projection — also
when there are no events, in which case the stored projection is the
initial book's. -/
theorem sampler_capture_counts (initial_book : Book) (events : List UpdEvent)
    (hvalid : ∀ e ∈ events, validEvent e) :
    (∃ ps, run_sampler initial_book events false 1 = .ok ps ∧
      ps.length = events.length) ∧
    (∀ k : Int, 0 < k → ∃ ps, run_sampler initial_book events false k = .ok ps ∧
      ps.length = events.length / k.toNat) ∧
    (∀ k : Int, k ≤ 0 → run_sampler initial_book events false k =
      run_sampler initial_book events false 1) ∧
    (∃ p, run_sampler initial_book events true 1 = .ok [p]) ∧
    run_sampler initial_book [] true 1 = .ok [book_to_levels initial_book] := by
  refine ⟨?_, ?_, ?_, ?_, rfl⟩
  · rcases strideLoop_ok_length 1 events ⟨initial_book.ask, initial_book.bid⟩ 0 hvalid with
      ⟨ps, hps, hlen⟩
    refine ⟨ps, ?_, ?_⟩
    · unfold run_sampler
      simpa using hps
    · simpa using hlen
  · intro k hk
    have hmax : max 1 k = k := max_eq_right (by omega)
    rcases strideLoop_ok_length k.toNat events ⟨initial_book.ask, initial_book.bid⟩ 0
      hvalid with ⟨ps, hps, hlen⟩
    refine ⟨ps, ?_, ?_⟩
    · unfold run_sampler
      rw [hmax]
      simpa using hps
    · simpa using hlen
  · intro k hk
    have hmax : max 1 k = 1 := max_eq_left (by omega)
    unfold run_sampler
    rw [hmax]
    rfl
  · rcases applyAllE_ok events ⟨initial_book.ask, initial_book.bid⟩ hvalid with ⟨b', hb'⟩
    refine ⟨book_to_levels b', ?_⟩
    unfold run_sampler
    dsimp only
    rw [hb']
    rfl

/-- Witness for `sampler_capture_counts`: one valid event, stride 1,
stores exactly one projection. -/
theorem sampler_capture_counts_witness :
    ∃ ps, run_sampler new_empty_book [⟨some (.arr []), some (.arr [])⟩] false 1 = .ok ps ∧
      ps.length = 1 :=
  (sampler_capture_counts new_empty_book [⟨some (.arr []), some (.arr [])⟩]
    (by decide)).1

/-! ### Claim C7: the concrete scenario -/

/-- C7: starting from the snapshot `{"asks":[["100.5","2"]], "bids":[["100.0","3"]]}`
and applying the event `{"b":[["100.0","0"]], "a":[["100.5","5"],["101.0","1"]]}`,
the final projection is `asks=[["100.5","5"],["101.0","1"]]`, `bids=[]`, and the
revert event from the final state back to the snapshot has bid list
`[["100.0","3"]]` and ask list `[["100.5","2"],["101.0","0.00000000"]]`, the
latter ascending by decimal price. -/
theorem concrete_scenario :
    ∃ B0 : Book, book_from_snapshot scenario_snapshot = .ok B0 ∧
      (apply_event B0 scenario_event).2 = none ∧
      book_to_levels (apply_event B0 scenario_event).1 =
        ⟨[("100.5", "5"), ("101.0", "1")], []⟩ ∧
      generate_revert_update (apply_event B0 scenario_event).1 B0 =
        ⟨[("100.0", "3")], [("100.5", "2"), ("101.0", "0.00000000")]⟩ ∧
      decOf "100.5" < decOf "101.0" := by
  refine ⟨⟨[("100.5", "2")], [("100.0", "3")]⟩, rfl, rfl, by decide, by decide, by decide⟩

/-! ### Claim C2: price identity is textual, not decimal -/

/-- C2 is false on the code: "0.00000100" and "0.000001" denote the same
decimal value, yet a zero-quantity update at "0.000001" does not remove
the level stored under the text "0.00000100", and a non-zero update at
"0.000001" creates a second level on the same side instead of replacing
the existing one. -/
theorem price_identity_counterexample :
    parseDecimal "0.00000100" = parseDecimal "0.000001" ∧
    (apply_event ⟨[], [("0.00000100", "1")]⟩
        ⟨some (.arr [.arr [.str "0.000001", .str "0"]]), some (.arr [])⟩).1 =
      ⟨[], [("0.00000100", "1")]⟩ ∧
    (apply_event ⟨[], [("0.00000100", "1")]⟩
        ⟨some (.arr [.arr [.str "0.000001", .str "7"]]), some (.arr [])⟩).1 =
      ⟨[], [("0.00000100", "1"), ("0.000001", "7")]⟩ := by
  refine ⟨by decide, by decide, by decide⟩

/-- C2 amended: level identity in the book is by exact price *text*, not
by decimal value: an update at price text `p2` (valid decimal, quantity
parsing non-negative) never touches a level stored under a different text
`p1`, even when the two texts denote the same decimal; a zero-quantity
update removes exactly the text-equal level, and a non-zero update
upserts exactly at its own text. -/
theorem price_identity_amended (book : Book) (p1 p2 q1 q2 : String)
    (hnd : (dkeys book.bid).Nodup) (hp2 : priceOkB p2 = true)
    (hq2 : qtyNonnegB q2 = true) (hmem : dget book.bid p1 = some q1)
    (hne : p2 ≠ p1) :
    (apply_event book ⟨some (.arr [.arr [.str p2, .str q2]]), some (.arr [])⟩).2 = none ∧
    dget (apply_event book ⟨some (.arr [.arr [.str p2, .str q2]]), some (.arr [])⟩).1.bid p1
      = some q1 ∧
    (decOf q2 = 0 →
      dget (apply_event book
        ⟨some (.arr [.arr [.str p2, .str q2]]), some (.arr [])⟩).1.bid p2 = none) ∧
    (¬ decOf q2 = 0 →
      dget (apply_event book
        ⟨some (.arr [.arr [.str p2, .str q2]]), some (.arr [])⟩).1.bid p2 = some q2) := by
  have hb : parse_levels (some (.arr [.arr [.str p2, .str q2]])) "bids" = .ok [(p2, q2)] := by
    have := parse_levels_encode "bids" [(p2, q2)] (by
      intro pq hm
      rcases List.mem_cons.mp hm with h | h
      · rw [h]; exact ⟨hp2, hq2⟩
      · cases h)
    simpa [encodeLevels] using this
  have ha : parse_levels (some (.arr [])) "asks" = .ok [] := rfl
  have happ := apply_event_ok book ⟨some (.arr [.arr [.str p2, .str q2]]), some (.arr [])⟩
    [(p2, q2)] [] hb ha
  rw [happ]
  have hap : applyLevels book.bid [(p2, q2)] = applyLevel book.bid (p2, q2) := rfl
  refine ⟨rfl, ?_, ?_, ?_⟩
  · show dget (applyLevels book.bid [(p2, q2)]) p1 = some q1
    rw [hap, dget_applyLevel book.bid (p2, q2) p1 hnd, if_neg hne, hmem]
  · intro hz
    show dget (applyLevels book.bid [(p2, q2)]) p2 = none
    rw [hap, dget_applyLevel book.bid (p2, q2) p2 hnd, if_pos rfl, if_pos hz]
  · intro hz
    show dget (applyLevels book.bid [(p2, q2)]) p2 = some q2
    rw [hap, dget_applyLevel book.bid (p2, q2) p2 hnd, if_pos rfl, if_neg hz]

/-- Witness for `price_identity_amended` at the equal-decimal pair
("0.00000100", "0.000001"). -/
theorem price_identity_amended_witness :
    dget (apply_event (⟨[], [("0.00000100", "1")]⟩ : Book)
      ⟨some (.arr [.arr [.str "0.000001", .str "0"]]), some (.arr [])⟩).1.bid "0.00000100"
      = some "1" :=
  (price_identity_amended ⟨[], [("0.00000100", "1")]⟩ "0.00000100" "0.000001" "1" "0"
    (by decide) (by decide) (by decide) (by decide) (by decide)).2.1

/-! ### Claim C3: the positivity invariant -/

/-- C3 is false on the code: `book_from_snapshot` keeps a level whose
snapshot quantity is exactly zero, so a freshly seeded book can hold a
price with quantity ≤ 0 (here ask price "1" with quantity text "0"). -/
theorem book_invariant_counterexample :
    book_from_snapshot [("asks", .arr [.arr [.str "1", .str "0"]])] =
      .ok ⟨[("1", "0")], []⟩ ∧
    dget (Book.ask ⟨[("1", "0")], []⟩) "1" = some "0" ∧ decOf "0" = 0 := by
  refine ⟨rfl, rfl, by decide⟩

/-- C3 amended: the empty book trivially has only positive quantities, and
`apply_event` preserves strict positivity of all stored quantities (even
on a failing event, for whatever it applied); `book_from_snapshot`
however guarantees only non-negativity — explicit zero-quantity snapshot
levels are inserted and retained rather than removed. -/
theorem book_invariant_amended :
    (SidePos new_empty_book.ask ∧ SidePos new_empty_book.bid) ∧
    (∀ snap B, book_from_snapshot snap = .ok B → SideNonneg B.ask ∧ SideNonneg B.bid) ∧
    (∀ (book : Book) (ev : UpdEvent), SidePos book.ask → SidePos book.bid →
      SidePos (apply_event book ev).1.ask ∧ SidePos (apply_event book ev).1.bid) := by
  refine ⟨⟨fun pq hm => absurd hm (List.not_mem_nil pq),
           fun pq hm => absurd hm (List.not_mem_nil pq)⟩, ?_, ?_⟩
  · intro snap B h
    unfold book_from_snapshot at h
    cases hasks : parse_levels (some ((jget snap "asks").getD (.arr []))) "asks" with
    | error e => rw [hasks] at h; exact absurd h (by simp)
    | ok asks =>
      rw [hasks] at h
      cases hbids : parse_levels (some ((jget snap "bids").getD (.arr []))) "bids" with
      | error e => rw [hbids] at h; exact absurd h (by simp)
      | ok bids =>
        rw [hbids] at h
        cases h
        constructor
        · intro pq hm
          rcases mem_foldl_dset asks [] pq hm with h' | h'
          · cases h'
          · exact (parse_levels_ok_mem _ "asks" asks hasks pq h').2
        · intro pq hm
          rcases mem_foldl_dset bids [] pq hm with h' | h'
          · cases h'
          · exact (parse_levels_ok_mem _ "bids" bids hbids pq h').2
  · intro book ev hask hbid
    unfold apply_event
    cases hb : parse_levels ev.b "bids" with
    | error e => exact ⟨hask, hbid⟩
    | ok bs =>
      have hbid1 : SidePos (applyLevels book.bid bs) :=
        SidePos_applyLevels book.bid bs hbid
          (fun pq hm => (parse_levels_ok_mem _ "bids" bs hb pq hm).2)
      cases ha : parse_levels ev.a "asks" with
      | error e => exact ⟨hask, hbid1⟩
      | ok asLs =>
        exact ⟨SidePos_applyLevels book.ask asLs hask
          (fun pq hm => (parse_levels_ok_mem _ "asks" asLs ha pq hm).2), hbid1⟩

/-- Witness for `book_invariant_amended`: a concrete event applied to a
concrete positive book keeps all quantities positive. -/
theorem book_invariant_amended_witness :
    SidePos (apply_event (⟨[("2", "5")], [("1", "4")]⟩ : Book)
      ⟨some (.arr [.arr [.str "1", .str "0"]]),
       some (.arr [.arr [.str "3", .str "7"]])⟩).1.ask :=
  (book_invariant_amended.2.2 ⟨[("2", "5")], [("1", "4")]⟩
    ⟨some (.arr [.arr [.str "1", .str "0"]]), some (.arr [.arr [.str "3", .str "7"]])⟩
    (by decide) (by decide)).1

/-! ### Claim C10: per-side validate-then-apply atomicity -/

/-- C10: `apply_event` validates the entire bid list before applying any
bid change and the entire ask list before applying any ask change: a
parse failure on the bid side leaves the book completely unchanged, and a
parse failure on the ask side leaves the ask side unchanged with exactly
the event's bid changes applied. -/
theorem per_side_atomicity (book : Book) (ev : UpdEvent) :
    (∀ e, parse_levels ev.b "bids" = .error e → apply_event book ev = (book, some e)) ∧
    (∀ bs e, parse_levels ev.b "bids" = .ok bs → parse_levels ev.a "asks" = .error e →
      apply_event book ev = (⟨book.ask, applyLevels book.bid bs⟩, some e)) := by
  constructor
  · intro e he
    unfold apply_event
    rw [he]
  · intro bs e hb ha
    unfold apply_event
    rw [hb, ha]

/-- Witness for `per_side_atomicity`: a malformed ask entry leaves the
applied bid change in place and the ask side untouched. -/
theorem per_side_atomicity_witness :
    apply_event (⟨[("2", "5")], []⟩ : Book)
      ⟨some (.arr [.arr [.str "1", .str "4"]]), some (.arr [.arr [.str "bad", .str "1"]])⟩ =
      (⟨[("2", "5")], [("1", "4")]⟩,
       some (.level ⟨"asks", 0, .arr [.str "bad", .str "1"], .badDecimal⟩)) := by
  have h := (per_side_atomicity (⟨[("2", "5")], []⟩ : Book)
    ⟨some (.arr [.arr [.str "1", .str "4"]]), some (.arr [.arr [.str "bad", .str "1"]])⟩).2
    [("1", "4")] (.level ⟨"asks", 0, .arr [.str "bad", .str "1"], .badDecimal⟩) rfl rfl
  rw [h]
  rfl

/-! ### Claim C4: failing events are not rolled back -/

/-- C4: for any event in the update stream's `{b, a}` list shape that
fails codec validation, `apply_event` raises a malformed-level error, and
whatever was applied before the failure stays applied: a bid-side failure
happens before any change (book unchanged), an ask-side failure happens
after all bid changes (which remain in the book). -/
theorem apply_non_atomic (book : Book) (brows arows : List Json)
    (hbad : ¬ validEvent ⟨some (.arr brows), some (.arr arows)⟩) :
    (∃ e, (apply_event book ⟨some (.arr brows), some (.arr arows)⟩).2 = some (.level e)) ∧
    (∀ e, parse_levels (some (.arr brows)) "bids" = .error e →
      (apply_event book ⟨some (.arr brows), some (.arr arows)⟩).1 = book) ∧
    (∀ bs, parse_levels (some (.arr brows)) "bids" = .ok bs →
      (apply_event book ⟨some (.arr brows), some (.arr arows)⟩).1 =
        ⟨book.ask, applyLevels book.bid bs⟩) := by
  have harr : ∀ (rows : List Json) (label : String) e,
      parse_levels (some (.arr rows)) label = .error e → ∃ e', e = .level e' := by
    intro rows label e h
    unfold parse_levels at h
    dsimp only at h
    cases haux : parseLevelsAux label 0 rows with
    | error e' =>
      rw [haux] at h
      cases h
      exact ⟨e', rfl⟩
    | ok out => rw [haux] at h; exact absurd h (by simp)
  refine ⟨?_, ?_, ?_⟩
  · cases hb : parse_levels (some (.arr brows)) "bids" with
    | error e =>
      rcases harr brows "bids" e hb with ⟨e', he'⟩
      refine ⟨e', ?_⟩
      unfold apply_event
      rw [hb, he']
    | ok bs =>
      cases ha : parse_levels (some (.arr arows)) "asks" with
      | error e =>
        rcases harr arows "asks" e ha with ⟨e', he'⟩
        refine ⟨e', ?_⟩
        unfold apply_event
        rw [hb, ha, he']
      | ok asLs =>
        exact absurd ((validEvent_iff _).mpr ⟨⟨bs, hb⟩, ⟨asLs, ha⟩⟩) hbad
  · intro e he
    unfold apply_event
    rw [he]
  · intro bs hb
    unfold apply_event
    rw [hb]
    cases ha : parse_levels (some (.arr arows)) "asks" with
    | error e => rfl
    | ok asLs => exact absurd ((validEvent_iff _).mpr ⟨⟨bs, hb⟩, ⟨asLs, ha⟩⟩) hbad

/-! ### Claim C5: the codec raises iff the row is bad -/

/-- A raw level row that the codec accepts: a two-element array of
strings, both parsing as exact decimals, with non-negative quantity. -/
def GoodRow (row : Json) : Prop :=
  ∃ p q r, row = .arr [.str p, .str q] ∧ (parseDecimal p).isSome = true ∧
    parseDecimal q = some r ∧ 0 ≤ r

/-- C5: validation of a raw level pair fails, with an error carrying the
offending label, index and raw row, exactly when the row is not a
two-element array of decimal-parsing strings with non-negative quantity;
a quantity parsing to exactly zero is accepted at this layer. -/
theorem codec_raises_iff (label : String) (i : Nat) (row : Json) :
    (∀ e, parseRow label i row = .error e →
      e.label = label ∧ e.index = i ∧ e.row = row) ∧
    ((∃ e, parseRow label i row = .error e) ↔ ¬ GoodRow row) ∧
    (∀ p q, priceOkB p = true → parseDecimal q = some 0 →
      parseRow label i (.arr [.str p, .str q]) = .ok (p, q)) := by
  refine ⟨?_, ⟨?_, ?_⟩, ?_⟩
  · intro e he
    unfold parseRow at he
    repeat' split at he
    all_goals first
      | (cases he; exact ⟨rfl, rfl, rfl⟩)
      | cases he
  · rintro ⟨e, he⟩ ⟨p, q, r, hrow, hp, hq, hr⟩
    subst hrow
    rcases Option.isSome_iff_exists.mp hp with ⟨v, hv⟩
    have hok : parseRow label i (.arr [.str p, .str q]) = .ok (p, q) := by
      unfold parseRow
      dsimp only
      rw [hv, hq]
      dsimp only
      rw [if_neg (not_lt.mpr hr)]
    rw [hok] at he
    cases he
  · intro hbad
    cases hres : parseRow label i row with
    | error e => exact ⟨e, rfl⟩
    | ok pq =>
      exfalso
      apply hbad
      rcases parseRow_ok label i row pq hres with ⟨hp, hq, hrow⟩
      rcases qtyNonnegB_exists pq.2 hq with ⟨r, hr, hr0⟩
      exact ⟨pq.1, pq.2, r, hrow, by simpa [priceOkB] using hp, hr, hr0⟩
  · intro p q hp hq
    exact parseRow_ok_of label i p q hp (by unfold qtyNonnegB; rw [hq]; rfl)

/-- Witness for `codec_raises_iff`: the single-element row `["100.5"]`
fails carrying its label, index and row, and `["1","0"]` (zero quantity)
is accepted. -/
theorem codec_raises_iff_witness :
    ((LevelErr.mk "bids" 3 (.arr [.str "100.5"]) .notPair).label = "bids" ∧
      (LevelErr.mk "bids" 3 (.arr [.str "100.5"]) .notPair).index = 3 ∧
      (LevelErr.mk "bids" 3 (.arr [.str "100.5"]) .notPair).row = .arr [.str "100.5"]) ∧
    parseRow "asks" 7 (.arr [.str "1", .str "0"]) = .ok ("1", "0") :=
  ⟨(codec_raises_iff "bids" 3 (.arr [.str "100.5"])).1
      ⟨"bids", 3, .arr [.str "100.5"], .notPair⟩ rfl,
   (codec_raises_iff "asks" 7 (.arr [.str "1", .str "0"])).2.2 "1" "0"
      (by decide) (by decide)⟩

/-! ### Claim C8: update payload shapes and errors -/

/-- C8 is false on the code: an update object with no `a`/`b` keys at all
does not raise — `iter_depth_events` defaults both sides to empty lists
and yields an empty change event. -/
theorem payload_shape_counterexample :
    iter_depth_events (.arr [.obj []]) = .ok [⟨[], []⟩] := rfl

/-- C8 amended: each update item selects the nested `data` object when
present (else the item itself) and both shapes feed the same `a`/`b`
extraction; an item that is not an object, or whose selected payload is
not an object, or whose `a`/`b` values are present but not lists, raises
a malformed-input error — but *missing* `a`/`b` keys do not raise, they
default to empty change lists. -/
theorem update_payload_amended (i : Nat) :
    (∀ kvs pkvs, jget kvs "data" = some (.obj pkvs) →
      normalizeUpdate i (.obj kvs) = extractAB i pkvs) ∧
    (∀ kvs, jget kvs "data" = none → normalizeUpdate i (.obj kvs) = extractAB i kvs) ∧
    (∀ pkvs, jget pkvs "a" = none → jget pkvs "b" = none →
      extractAB i pkvs = .ok ⟨[], []⟩) ∧
    (∀ item, (∀ kvs, item ≠ .obj kvs) →
      normalizeUpdate i item = .error (.itemNotObject i)) ∧
    (∀ kvs j, jget kvs "data" = some j → (∀ pkvs, j ≠ .obj pkvs) →
      normalizeUpdate i (.obj kvs) = .error (.payloadNotObject i)) ∧
    (∀ pkvs asLs bs, jget pkvs "a" = some (.arr asLs) → jget pkvs "b" = some (.arr bs) →
      extractAB i pkvs = .ok ⟨asLs, bs⟩) ∧
    (∀ pkvs j, jget pkvs "a" = some j → (∀ xs, j ≠ .arr xs) →
      extractAB i pkvs = .error (.missingAB i)) := by
  refine ⟨?_, ?_, ?_, ?_, ?_, ?_, ?_⟩
  · intro kvs pkvs h
    unfold normalizeUpdate
    dsimp only
    rw [h]
    rfl
  · intro kvs h
    unfold normalizeUpdate
    dsimp only
    rw [h]
    rfl
  · intro pkvs ha hb
    unfold extractAB
    rw [ha, hb]
    rfl
  · intro item h
    cases item with
    | obj kvs => exact absurd rfl (h kvs)
    | str s => rfl
    | num n => rfl
    | bool b => rfl
    | null => rfl
    | arr xs => rfl
  · intro kvs j h hno
    unfold normalizeUpdate
    dsimp only
    rw [h]
    cases j with
    | obj pkvs => exact absurd rfl (hno pkvs)
    | str s => rfl
    | num n => rfl
    | bool b => rfl
    | null => rfl
    | arr xs => rfl
  · intro pkvs asLs bs ha hb
    unfold extractAB
    rw [ha, hb]
    rfl
  · intro pkvs j ha hno
    unfold extractAB
    rw [ha]
    cases j with
    | arr xs => exact absurd rfl (hno xs)
    | str s => rfl
    | num n => rfl
    | bool b => rfl
    | null => rfl
    | obj kvs => rfl

/-- Witness for `update_payload_amended`: the nested and flat shapes of
the same `a`/`b` data normalize identically, and a non-object item
raises. -/
theorem update_payload_amended_witness :
    normalizeUpdate 0 (.obj [("data", .obj [("a", .arr []), ("b", .arr [])])]) =
      extractAB 0 [("a", .arr []), ("b", .arr [])] ∧
    normalizeUpdate 1 (.obj [("a", .arr []), ("b", .arr [])]) =
      extractAB 1 [("a", .arr []), ("b", .arr [])] ∧
    normalizeUpdate 2 (.str "x") = .error (.itemNotObject 2) :=
  ⟨(update_payload_amended 0).1 [("data", .obj [("a", .arr []), ("b", .arr [])])]
      [("a", .arr []), ("b", .arr [])] rfl,
   (update_payload_amended 1).2.1 [("a", .arr []), ("b", .arr [])] rfl,
   (update_payload_amended 2).2.2.2.1 (.str "x") (fun kvs h => by cases h)⟩

/-- Witness for `apply_non_atomic`: the spec's malformed single-element
level `["100.5"]` on the ask side fails while the bid change remains. -/
theorem apply_non_atomic_witness :
    ¬ validEvent ⟨some (.arr [.arr [.str "1", .str "4"]]), some (.arr [.arr [.str "100.5"]])⟩ ∧
    (apply_event (⟨[], []⟩ : Book)
      ⟨some (.arr [.arr [.str "1", .str "4"]]), some (.arr [.arr [.str "100.5"]])⟩).1 =
      ⟨[], [("1", "4")]⟩ := by
  refine ⟨by decide, ?_⟩
  have h := (apply_non_atomic (⟨[], []⟩ : Book) [.arr [.str "1", .str "4"]]
    [.arr [.str "100.5"]] (by decide)).2.2 [("1", "4")] rfl
  rw [h]
  rfl

end OrderbookLocal
